import Mathlib

set_option maxHeartbeats 1000000
set_option maxRecDepth 8000

/-!
Formal model of the automata library (src/automata.py): loading of an
automaton from its textual description, word acceptance simulation
(ACEITA / REJEITA / INVALIDA), epsilon closure and the NFA-to-DFA subset
construction.  Python sets of state names are modelled as `Finset String`,
Python lists as `List`, the while-loops as fuelled recursions whose fuel
provably dominates the loop's termination measure.
-/

deriving instance DecidableEq for Except

/-- A transition is an ordered triple (origin, symbol, destination). -/
abbrev TRule := String × String × String

/-- The automaton 5-tuple (states, alphabet, delta, initial_state,
final_states) as returned by load_automata and consumed by process and
convert_to_dfa. -/
structure Automaton where
  states : List String
  alphabet : List String
  delta : List TRule
  initial_state : String
  final_states : List String
deriving DecidableEq

/-- Python str.strip(): drop whitespace from both ends. -/
def pyStrip (s : String) : String :=
  String.mk (((s.data.dropWhile Char.isWhitespace).reverse.dropWhile
    Char.isWhitespace).reverse)

/-- Splitting a character list on whitespace runs, accumulating the current
token in reverse; no empty pieces are produced. -/
def wsSplitGo : List Char → List Char → List (List Char)
  | [], acc => if acc = [] then [] else [acc.reverse]
  | c :: cs, acc =>
    if c.isWhitespace then
      if acc = [] then wsSplitGo cs [] else acc.reverse :: wsSplitGo cs []
    else wsSplitGo cs (c :: acc)

/-- Python str.split(): split on whitespace, dropping empty pieces. -/
def pySplit (s : String) : List String :=
  (wsSplitGo s.data []).map String.mk

/-- Validation and collection of the transition lines of load_automata (the
body of its for-loop over lines from the fifth on), in the source's check
order: token count, endpoint states, then symbol. -/
def parse_transitions (states alphabet : List String) :
    List String → Except String (List TRule)
  | [] => Except.ok []
  | line :: rest =>
    match pySplit line with
    | [o, s, d] =>
      if o ∉ states ∨ d ∉ states then
        Except.error ("Estado na transicao invalido: " ++ line)
      else if s ≠ "&" ∧ s ∉ alphabet then
        Except.error ("Simbolo na transicao invalido: " ++ line)
      else
        match parse_transitions states alphabet rest with
        | Except.ok ds => Except.ok ((o, (s, d)) :: ds)
        | Except.error e => Except.error e
    | _ => Except.error ("Transicao invalida: " ++ line)

/-- load_automata, modelled on the list of lines of the file (the file I/O
wrapper aside): every line is stripped; the first four lines are the
alphabet, the states, the accepting states and the initial state; all
remaining lines are transition rules.  The source demands at least five
lines, checks the accepting states, then the transition lines, then the
initial state. -/
def load_automata (input : List String) : Except String Automaton :=
  match input.map pyStrip with
  | l0 :: l1 :: l2 :: l3 :: l4 :: rest =>
    let alphabet := pySplit l0
    let states := pySplit l1
    let final_states := pySplit l2
    let initial_state := l3
    if ∀ q ∈ final_states, q ∈ states then
      match parse_transitions states alphabet (l4 :: rest) with
      | Except.ok delta =>
        if initial_state ∈ states then
          Except.ok ⟨states, alphabet, delta, initial_state, final_states⟩
        else Except.error ("Estado inicial invalido.")
      | Except.error e => Except.error e
    else Except.error ("Estado final invalido.")
  | _ => Except.error ("Arquivo invalido: numero insuficiente de linhas.")

/-- Word validity test of process: every character of the word is a member
of the alphabet (a character is compared as a one-character string, as in
Python iteration over a string). -/
def is_valid_word (alphabet : List String) (word : List Char) : Bool :=
  word.all (fun c => alphabet.contains (String.mk [c]))

/-- Inner lookup of process: the first transition of the list matching
(state, symbol), if any. -/
def transition (delta : List TRule) (state symbol : String) : Option String :=
  (delta.find? (fun t => t.1 == state && t.2.1 == symbol)).map (fun t => t.2.2)

/-- The simulation loop of process: consume symbols following the first
matching transition; a missing transition — or a falsy (empty-string)
destination, as in the Python test `if next_state:` — breaks the loop. -/
def sim (delta : List TRule) : String → List Char → String
  | current, [] => current
  | current, c :: cs =>
    match transition delta current (String.mk [c]) with
    | some next => if next = "" then current else sim delta next cs
    | none => current

/-- Remaining input at the moment the simulation loop of process stops
(analysis companion of sim). -/
def sim_rest (delta : List TRule) : String → List Char → List Char
  | _, [] => []
  | current, c :: cs =>
    match transition delta current (String.mk [c]) with
    | some next => if next = "" then c :: cs else sim_rest delta next cs
    | none => c :: cs

/-- Verdict of process for a single word. -/
def processWord (A : Automaton) (word : List Char) : String :=
  if is_valid_word A.alphabet word then
    if sim A.delta A.initial_state word ∈ A.final_states then "ACEITA"
    else "REJEITA"
  else "INVALIDA"

/-- Python dict assignment results[k] = v on an association list: update in
place when the key is present, append otherwise. -/
def dict_insert (d : List (List Char × String)) (k : List Char) (v : String) :
    List (List Char × String) :=
  if d.any (fun p => p.1 == k) then
    d.map (fun p => if p.1 == k then (k, v) else p)
  else d ++ [(k, v)]

/-- process: the verdict dictionary over a word list. -/
def process (A : Automaton) (words : List (List Char)) :
    List (List Char × String) :=
  words.foldl (fun res word => dict_insert res word (processWord A word)) []

/-- Destinations of the epsilon transitions of delta (bounds the growth of
a closure computation). -/
def epsDests (delta : List TRule) : Finset String :=
  ((delta.filter (fun t => t.2.1 == "&")).map (fun t => t.2.2)).toFinset

/-- One scan of delta inside the closure while-loop: epsilon transitions out
of current whose destination is not yet in the closure add it to the closure
and push it on the stack. -/
def closure_body (current : String) (st : List String × Finset String)
    (t : TRule) : List String × Finset String :=
  if t.1 = current ∧ t.2.1 = "&" ∧ t.2.2 ∉ st.2 then
    (t.2.2 :: st.1, insert t.2.2 st.2)
  else st

/-- The fuelled closure while-loop shared by handle_closure and
epsilon_closure: pop a state off the stack, scan delta for its epsilon
successors.  The fuel argument dominates the loop's termination measure. -/
def closure_loop (delta : List TRule) :
    Nat → List String → Finset String → Finset String
  | 0, _, closure => closure
  | _ + 1, [], closure => closure
  | fuel + 1, current :: stack, closure =>
    let st := delta.foldl (closure_body current) (stack, closure)
    closure_loop delta fuel st.1 st.2

/-- handle_closure: the epsilon closure of a single state. -/
def handle_closure (state : String) (delta : List TRule) : Finset String :=
  closure_loop delta (1 + 2 * (insert state (epsDests delta)).card)
    [state] {state}

/-- Code-point lexicographic comparison of character lists (the order
Python uses on strings). -/
def charListLeb : List Char → List Char → Bool
  | [], _ => true
  | _ :: _, [] => false
  | a :: as, b :: bs =>
    if a.toNat < b.toNat then true
    else if b.toNat < a.toNat then false
    else charListLeb as bs

/-- Code-point lexicographic order on strings: the order of Python's
sorted(). -/
def nameLe (a b : String) : Prop := charListLeb a.data b.data = true

instance : DecidableRel nameLe := fun a b => by unfold nameLe; infer_instance

lemma char_toNat_inj {a b : Char} (h : a.toNat = b.toNat) : a = b :=
  Char.ext (UInt32.ext h)

lemma charListLeb_total : ∀ u v, charListLeb u v = true ∨ charListLeb v u = true := by
  intro u
  induction u with
  | nil => intro v; left; rfl
  | cons a as ih =>
    intro v
    cases v with
    | nil => right; rfl
    | cons b bs =>
      simp only [charListLeb]
      rcases Nat.lt_trichotomy a.toNat b.toNat with h | h | h
      · left; simp [h]
      · have hab : a = b := char_toNat_inj h
        subst hab
        simp only [Nat.lt_irrefl, if_false]
        exact ih bs
      · right; simp [h, Nat.not_lt.mpr (Nat.le_of_lt h)]

lemma charListLeb_trans : ∀ u v w, charListLeb u v = true → charListLeb v w = true →
    charListLeb u w = true := by
  intro u
  induction u with
  | nil => intro v w _ _; rfl
  | cons a as ih =>
    intro v w h1 h2
    cases v with
    | nil => simp [charListLeb] at h1
    | cons b bs =>
      cases w with
      | nil => simp [charListLeb] at h2
      | cons c cs =>
        simp only [charListLeb] at h1 h2 ⊢
        rcases Nat.lt_trichotomy a.toNat b.toNat with hab | hab | hab
        · rcases Nat.lt_trichotomy b.toNat c.toNat with hbc | hbc | hbc
          · simp [show a.toNat < c.toNat by omega]
          · simp [show a.toNat < c.toNat by omega]
          · rw [if_neg (by omega), if_pos hbc] at h2; exact absurd h2 (by simp)
        · rw [if_neg (by omega), if_neg (by omega)] at h1
          rcases Nat.lt_trichotomy b.toNat c.toNat with hbc | hbc | hbc
          · simp [show a.toNat < c.toNat by omega]
          · rw [if_neg (by omega), if_neg (by omega)] at h2 ⊢
            exact ih bs cs h1 h2
          · rw [if_neg (by omega), if_pos hbc] at h2; exact absurd h2 (by simp)
        · rw [if_neg (by omega), if_pos hab] at h1; exact absurd h1 (by simp)

lemma charListLeb_antisymm : ∀ u v, charListLeb u v = true → charListLeb v u = true →
    u = v := by
  intro u
  induction u with
  | nil =>
    intro v _ h2
    cases v with
    | nil => rfl
    | cons b bs => simp [charListLeb] at h2
  | cons a as ih =>
    intro v h1 h2
    cases v with
    | nil => simp [charListLeb] at h1
    | cons b bs =>
      simp only [charListLeb] at h1 h2
      rcases Nat.lt_trichotomy a.toNat b.toNat with hab | hab | hab
      · rw [if_neg (by omega), if_pos hab] at h2; exact absurd h2 (by simp)
      · have hab' : a = b := char_toNat_inj hab
        subst hab'
        rw [if_neg (by omega), if_neg (by omega)] at h1 h2
        rw [ih bs h1 h2]
      · rw [if_neg (by omega), if_pos hab] at h1; exact absurd h1 (by simp)

instance : IsTotal String nameLe := ⟨fun a b => charListLeb_total a.data b.data⟩
instance : IsTrans String nameLe := ⟨fun a b c => charListLeb_trans a.data b.data c.data⟩
instance : IsAntisymm String nameLe :=
  ⟨fun a b h1 h2 => String.ext (charListLeb_antisymm a.data b.data h1 h2)⟩

/-- Ascending list of the members of a finite set of names (insertion sort
lifted over the multiset quotient, so that it evaluates by kernel
reduction). -/
def sortedNames (s : Finset String) : List String :=
  Quot.liftOn s.val (fun l => l.insertionSort nameLe)
    (fun _ _ h => List.eq_of_perm_of_sorted
      ((List.perm_insertionSort _ _).trans
        (List.Perm.trans h (List.perm_insertionSort _ _).symm))
      (List.sorted_insertionSort _ _) (List.sorted_insertionSort _ _))

lemma mem_sortedNames {s : Finset String} {x : String} : x ∈ sortedNames s ↔ x ∈ s := by
  rcases s with ⟨val, nd⟩
  induction val using Quot.inductionOn with
  | h l =>
    show x ∈ l.insertionSort nameLe ↔ _
    rw [List.mem_insertionSort]
    rfl

lemma length_sortedNames (s : Finset String) : (sortedNames s).length = s.card := by
  rcases s with ⟨val, nd⟩
  induction val using Quot.inductionOn with
  | h l =>
    show (l.insertionSort nameLe).length = _
    rw [List.length_insertionSort]
    rfl

lemma sortedNames_inj {s t : Finset String} (h : sortedNames s = sortedNames t) :
    s = t := by
  ext x
  rw [← mem_sortedNames, h, mem_sortedNames]

/-- epsilon_closure: the epsilon closure of a set of states (the converter's
nested helper, same worklist algorithm started from a set). -/
def epsilon_closure (delta : List TRule) (states : Finset String) :
    Finset String :=
  closure_loop delta (states.card + 2 * (states ∪ epsDests delta).card)
    (sortedNames states) states

/-- find_transitions: destinations of the transitions leaving the given
state set on the given symbol. -/
def find_transitions (delta : List TRule) (states : Finset String)
    (symbol : String) : Finset String :=
  ((delta.filter (fun t => decide (t.1 ∈ states) && (t.2.1 == symbol))).map
    (fun t => t.2.2)).toFinset

/-- Python ','.join. -/
def joinComma : List String → String
  | [] => ""
  | [x] => x
  | x :: xs => x ++ "," ++ joinComma xs

/-- state_to_str: canonical name of a state set, its members sorted and
comma-joined. -/
def state_to_str (state_set : Finset String) : String :=
  joinComma (sortedNames state_set)

/-- Per-symbol step of the converter's worklist loop: compute the epsilon
closure of the move set; if it is non-empty record the DFA transition, and
when the set is unseen append it to visited and push it on the queue.  The
loop state is (queue, visited, new_delta). -/
def conv_body (delta : List TRule) (current : Finset String)
    (st : List (Finset String) × List (Finset String) × List TRule)
    (symbol : String) :
    List (Finset String) × List (Finset String) × List TRule :=
  let next_states := epsilon_closure delta (find_transitions delta current symbol)
  if next_states ≠ ∅ then
    let new_delta :=
      st.2.2 ++ [(state_to_str current, (symbol, state_to_str next_states))]
    if next_states ∉ st.2.1 then
      (next_states :: st.1, st.2.1 ++ [next_states], new_delta)
    else (st.1, st.2.1, new_delta)
  else st

/-- The fuelled subset-construction worklist loop of convert_to_dfa: pop a
state set, append it to visited (unconditionally, as the source does), and
process every alphabet symbol. -/
def convert_loop (alphabet : List String) (delta : List TRule) :
    Nat → List (Finset String) → List (Finset String) → List TRule →
    List (Finset String) × List TRule
  | 0, _, visited, new_delta => (visited, new_delta)
  | _ + 1, [], visited, new_delta => (visited, new_delta)
  | fuel + 1, current :: queue, visited, new_delta =>
    let st := alphabet.foldl (conv_body delta current)
      (queue, visited ++ [current], new_delta)
    convert_loop alphabet delta fuel st.1 st.2.1 st.2.2

/-- Start set of the conversion: the epsilon closure of the initial state. -/
def conv_start (A : Automaton) : Finset String :=
  epsilon_closure A.delta {A.initial_state}

/-- Universe bounding every state set the conversion can discover. -/
def convU (A : Automaton) : Finset String :=
  insert A.initial_state ((A.delta.map (fun t => t.2.2)).toFinset)

/-- Sufficient fuel for the conversion worklist. -/
def conv_fuel (A : Automaton) : Nat := 1 + 2 * 2 ^ (convU A).card

/-- The worklist run of convert_to_dfa: the visited list (in the order the
source builds it) and the DFA transition list. -/
def conv_run (A : Automaton) : List (Finset String) × List TRule :=
  convert_loop A.alphabet A.delta (conv_fuel A) [conv_start A] [] []

/-- Visited state sets of the conversion, in the order the source appends
them. -/
def visited_sets (A : Automaton) : List (Finset String) := (conv_run A).1

/-- convert_to_dfa: the subset construction, producing the new automaton
from the worklist run. -/
def convert_to_dfa (A : Automaton) : Automaton :=
  { states := (conv_run A).1.map state_to_str
    alphabet := A.alphabet
    delta := (conv_run A).2
    initial_state := state_to_str (conv_start A)
    final_states :=
      ((conv_run A).1.filter
        (fun V => decide (∃ q ∈ V, q ∈ A.final_states))).map state_to_str }

/-- One epsilon transition step of the relation delta. -/
def epsStep (delta : List TRule) (a b : String) : Prop := (a, ("&", b)) ∈ delta

/-- One powerset step: the epsilon closure of the move set of V on the
character c. -/
def pstep (delta : List TRule) (V : Finset String) (a : String) : Finset String :=
  epsilon_closure delta (find_transitions delta V a)

/-- Full powerset run: the set of NFA states reachable after consuming the
word from the state set V. -/
def powerRun (delta : List TRule) : Finset String → List Char → Finset String
  | V, [] => V
  | V, c :: cs => powerRun delta (pstep delta V (String.mk [c])) cs

/-- Truncated powerset run: stop (keeping the last non-empty set) as soon as
a step would produce the empty set — the set the converted DFA is left in
when process halts early. -/
def live_run (delta : List TRule) : Finset String → List Char → Finset String
  | V, [] => V
  | V, c :: cs =>
    if pstep delta V (String.mk [c]) = ∅ then V
    else live_run delta (pstep delta V (String.mk [c])) cs

/-- Length of the longest prefix of the word along which the powerset run
stays non-empty. -/
def live_len (delta : List TRule) : Finset String → List Char → Nat
  | _, [] => 0
  | V, c :: cs =>
    if pstep delta V (String.mk [c]) = ∅ then 0
    else live_len delta (pstep delta V (String.mk [c])) cs + 1

/-- Accepting-run semantics of the NFA: NfaRun delta q w q' holds when the
NFA can consume the whole word w from q and end in q', interleaving
arbitrarily many epsilon transitions. -/
def NfaRun (delta : List TRule) : String → List Char → String → Prop
  | q, [], qf => Relation.ReflTransGen (epsStep delta) q qf
  | q, c :: cs, qf => ∃ q1 q2, Relation.ReflTransGen (epsStep delta) q q1 ∧
      (q1, (String.mk [c], q2)) ∈ delta ∧ NfaRun delta q2 cs qf

/-- The structural invariants of the data model (spec section 3). -/
def SatisfiesInvariants (A : Automaton) : Prop :=
  A.initial_state ∈ A.states ∧ (∀ q ∈ A.final_states, q ∈ A.states) ∧
  (∀ t ∈ A.delta, t.1 ∈ A.states ∧ t.2.2 ∈ A.states ∧
    (t.2.1 = "&" ∨ t.2.1 ∈ A.alphabet)) ∧
  "&" ∉ A.alphabet ∧ A.states ≠ []

/-- State names that make the sorted-join naming injective: non-empty and
comma-free. -/
def NiceNames (A : Automaton) : Prop :=
  ∀ q ∈ A.states, q ≠ "" ∧ ¬ ((',' : Char) ∈ q.data)

instance (A : Automaton) : Decidable (SatisfiesInvariants A) := by
  unfold SatisfiesInvariants; infer_instance

instance (A : Automaton) : Decidable (NiceNames A) := by
  unfold NiceNames; infer_instance

/-! Injectivity of the sorted comma-join naming on comma-free names. -/

lemma sep_split : ∀ (u : List Char) (v r s : List Char),
    (',' : Char) ∉ u → (',' : Char) ∉ v →
    u ++ ',' :: r = v ++ ',' :: s → u = v ∧ r = s := by
  intro u
  induction u with
  | nil =>
    intro v r s _ hv h
    cases v with
    | nil => exact ⟨rfl, by injection h⟩
    | cons c v' =>
      exfalso
      injection h with h1 h2
      exact hv (by rw [← h1]; exact List.mem_cons_self _ _)
  | cons c u' ih =>
    intro v r s hu hv h
    cases v with
    | nil =>
      exfalso
      injection h with h1 h2
      exact hu (by rw [h1]; exact List.mem_cons_self _ _)
    | cons b v' =>
      injection h with h1 h2
      obtain ⟨hq, hr⟩ := ih v' r s (fun hm => hu (List.mem_cons_of_mem _ hm))
        (fun hm => hv (List.mem_cons_of_mem _ hm)) h2
      exact ⟨by rw [h1, hq], hr⟩

lemma joinComma_cons_cons (x y : String) (t : List String) :
    joinComma (x :: y :: t) = x ++ "," ++ joinComma (y :: t) := rfl

lemma joinComma_data_cons_cons (x y : String) (t : List String) :
    (joinComma (x :: y :: t)).data = x.data ++ ',' :: (joinComma (y :: t)).data := by
  rw [joinComma_cons_cons]
  have h1 : (x ++ "," ++ joinComma (y :: t)).data =
      x.data ++ ",".data ++ (joinComma (y :: t)).data := rfl
  have h2 : ",".data = [','] := rfl
  rw [h1, h2]
  simp

lemma joinComma_inj : ∀ (l : List String) (m : List String), l ≠ [] → m ≠ [] →
    (∀ x ∈ l, (',' : Char) ∉ x.data) → (∀ x ∈ m, (',' : Char) ∉ x.data) →
    joinComma l = joinComma m → l = m := by
  intro l
  induction l with
  | nil => intro m hl _ _ _ _; exact absurd rfl hl
  | cons x xs ih =>
    intro m _ hm hlc hmc heq
    cases m with
    | nil => exact absurd rfl hm
    | cons y ys =>
      cases xs with
      | nil =>
        cases ys with
        | nil =>
          show [x] = [y]
          have : x = y := heq
          rw [this]
        | cons y' ys' =>
          exfalso
          apply hlc x (List.mem_cons_self x [])
          have hd : x.data = y.data ++ ',' :: (joinComma (y' :: ys')).data := by
            have h := congrArg String.data heq
            rwa [joinComma_data_cons_cons] at h
          rw [hd]
          simp
      | cons x' xs' =>
        cases ys with
        | nil =>
          exfalso
          apply hmc y (List.mem_cons_self y [])
          have hd : y.data = x.data ++ ',' :: (joinComma (x' :: xs')).data := by
            have h := congrArg String.data heq.symm
            rwa [joinComma_data_cons_cons] at h
          rw [hd]
          simp
        | cons y' ys' =>
          have hd : x.data ++ ',' :: (joinComma (x' :: xs')).data =
              y.data ++ ',' :: (joinComma (y' :: ys')).data := by
            have h := congrArg String.data heq
            rwa [joinComma_data_cons_cons, joinComma_data_cons_cons] at h
          obtain ⟨h1, h2⟩ := sep_split x.data y.data _ _
            (hlc x (List.mem_cons_self x _)) (hmc y (List.mem_cons_self y _)) hd
          have hxy : x = y := String.ext h1
          have htail : x' :: xs' = y' :: ys' := by
            apply ih (y' :: ys') (by simp) (by simp)
              (fun z hz => hlc z (List.mem_cons_of_mem _ hz))
              (fun z hz => hmc z (List.mem_cons_of_mem _ hz))
            exact String.ext h2
          rw [hxy, htail]

lemma state_to_str_inj {S T : Finset String} (hS : S.Nonempty) (hT : T.Nonempty)
    (hSc : ∀ x ∈ S, (',' : Char) ∉ x.data)
    (hTc : ∀ x ∈ T, (',' : Char) ∉ x.data)
    (h : state_to_str S = state_to_str T) : S = T := by
  apply sortedNames_inj
  apply joinComma_inj
  · intro hnil
    have := length_sortedNames S
    rw [hnil] at this
    simp only [List.length_nil] at this
    exact absurd this.symm (Nat.ne_of_gt (Finset.card_pos.mpr hS))
  · intro hnil
    have := length_sortedNames T
    rw [hnil] at this
    simp only [List.length_nil] at this
    exact absurd this.symm (Nat.ne_of_gt (Finset.card_pos.mpr hT))
  · intro z hz; exact hSc z (mem_sortedNames.mp hz)
  · intro z hz; exact hTc z (mem_sortedNames.mp hz)
  · exact h

lemma state_to_str_ne_empty {S : Finset String} (hS : S.Nonempty)
    (hne : ∀ x ∈ S, x ≠ "") : state_to_str S ≠ "" := by
  have hlen : (sortedNames S).length = S.card := length_sortedNames S
  intro hcon
  match hL : sortedNames S with
  | [] =>
    rw [hL] at hlen
    simp only [List.length_nil] at hlen
    exact absurd hlen.symm (Nat.ne_of_gt (Finset.card_pos.mpr hS))
  | [x] =>
    have hx : x ∈ S := mem_sortedNames.mp (by rw [hL]; exact List.mem_cons_self x [])
    apply hne x hx
    have : state_to_str S = x := by rw [state_to_str, hL]; rfl
    rw [← this, hcon]
  | x :: y :: t =>
    have : (state_to_str S).data = x.data ++ ',' :: (joinComma (y :: t)).data := by
      rw [state_to_str, hL, joinComma_data_cons_cons]
    rw [hcon] at this
    simp at this

/-! Worklist invariants of the closure loop. -/

lemma closure_body_eq (current : String) (s : List String) (c : Finset String)
    (t : TRule) :
    closure_body current (s, c) t =
      if t.1 = current ∧ t.2.1 = "&" ∧ t.2.2 ∉ c then (t.2.2 :: s, insert t.2.2 c)
      else (s, c) := rfl

lemma closure_fold_mono (current : String) :
    ∀ (l : List TRule) (s : List String) (c : Finset String),
    c ⊆ (l.foldl (closure_body current) (s, c)).2 := by
  intro l
  induction l with
  | nil => intro s c x hx; exact hx
  | cons t ts ih =>
    intro s c
    rw [List.foldl_cons, closure_body_eq]
    split_ifs with h
    · exact (Finset.subset_insert _ _).trans (ih _ _)
    · exact ih _ _

lemma closure_fold_new (current : String) :
    ∀ (l : List TRule) (s : List String) (c : Finset String),
    ∀ x ∈ (l.foldl (closure_body current) (s, c)).2,
    x ∈ c ∨ (current, ("&", x)) ∈ l := by
  intro l
  induction l with
  | nil => intro s c x hx; exact Or.inl hx
  | cons t ts ih =>
    intro s c x hx
    rw [List.foldl_cons, closure_body_eq] at hx
    split_ifs at hx with h
    · rcases ih _ _ x hx with h1 | h1
      · rcases Finset.mem_insert.mp h1 with h2 | h2
        · right
          have ht : (current, ("&", x)) = t := by
            obtain ⟨ha, hb, _⟩ := h
            rw [← ha, ← hb, h2]
          rw [ht]
          exact List.mem_cons_self _ _
        · exact Or.inl h2
      · exact Or.inr (List.mem_cons_of_mem _ h1)
    · rcases ih _ _ x hx with h1 | h1
      · exact Or.inl h1
      · exact Or.inr (List.mem_cons_of_mem _ h1)

lemma closure_fold_complete (current : String) :
    ∀ (l : List TRule) (s : List String) (c : Finset String),
    ∀ t ∈ l, t.1 = current → t.2.1 = "&" →
    t.2.2 ∈ (l.foldl (closure_body current) (s, c)).2 := by
  intro l
  induction l with
  | nil => intro s c t ht; exact absurd ht (List.not_mem_nil t)
  | cons t ts ih =>
    intro s c t' ht' h1 h2
    rcases List.mem_cons.mp ht' with he | hm
    · subst he
      rw [List.foldl_cons, closure_body_eq]
      split_ifs with h
      · exact closure_fold_mono current ts _ _ (Finset.mem_insert_self _ _)
      · have : t'.2.2 ∈ c := by
          by_contra hc
          exact h ⟨h1, h2, hc⟩
        exact closure_fold_mono current ts _ _ this
    · rw [List.foldl_cons, closure_body_eq]
      split_ifs with h
      · exact ih _ _ t' hm h1 h2
      · exact ih _ _ t' hm h1 h2

lemma closure_fold_stack_mono (current : String) :
    ∀ (l : List TRule) (s : List String) (c : Finset String),
    ∀ x ∈ s, x ∈ (l.foldl (closure_body current) (s, c)).1 := by
  intro l
  induction l with
  | nil => intro s c x hx; exact hx
  | cons t ts ih =>
    intro s c x hx
    rw [List.foldl_cons, closure_body_eq]
    split_ifs with h
    · exact ih _ _ x (List.mem_cons_of_mem _ hx)
    · exact ih _ _ x hx

lemma closure_fold_stack_new (current : String) :
    ∀ (l : List TRule) (s : List String) (c : Finset String),
    ∀ x ∈ (l.foldl (closure_body current) (s, c)).1,
    x ∈ s ∨ x ∈ (l.foldl (closure_body current) (s, c)).2 := by
  intro l
  induction l with
  | nil => intro s c x hx; exact Or.inl hx
  | cons t ts ih =>
    intro s c x hx
    rw [List.foldl_cons, closure_body_eq] at hx ⊢
    split_ifs at hx ⊢ with h
    · rcases ih _ _ x hx with h1 | h1
      · rcases List.mem_cons.mp h1 with h2 | h2
        · subst h2
          exact Or.inr (closure_fold_mono current ts _ _ (Finset.mem_insert_self _ _))
        · exact Or.inl h2
      · exact Or.inr h1
    · exact ih _ _ x hx

lemma closure_fold_closure_stack (current : String) :
    ∀ (l : List TRule) (s : List String) (c : Finset String),
    ∀ x ∈ (l.foldl (closure_body current) (s, c)).2,
    x ∈ c ∨ x ∈ (l.foldl (closure_body current) (s, c)).1 := by
  intro l
  induction l with
  | nil => intro s c x hx; exact Or.inl hx
  | cons t ts ih =>
    intro s c x hx
    rw [List.foldl_cons, closure_body_eq] at hx ⊢
    split_ifs at hx ⊢ with h
    · rcases ih _ _ x hx with h1 | h1
      · rcases Finset.mem_insert.mp h1 with h2 | h2
        · subst h2
          exact Or.inr (closure_fold_stack_mono current ts _ _ _ (List.mem_cons_self _ _))
        · exact Or.inl h2
      · exact Or.inr h1
    · exact ih _ _ x hx

lemma closure_fold_measure (current : String) :
    ∀ (l : List TRule) (s : List String) (c : Finset String),
    (l.foldl (closure_body current) (s, c)).1.length + 2 * c.card ≤
      s.length + 2 * (l.foldl (closure_body current) (s, c)).2.card := by
  intro l
  induction l with
  | nil => intro s c; simp only [List.foldl_nil]; omega
  | cons t ts ih =>
    intro s c
    rw [List.foldl_cons, closure_body_eq]
    split_ifs with h
    · have hcard : (insert t.2.2 c).card = c.card + 1 :=
        Finset.card_insert_of_not_mem h.2.2
      have := ih (t.2.2 :: s) (insert t.2.2 c)
      rw [hcard] at this
      simp only [List.length_cons] at this
      omega
    · exact ih _ _

lemma closure_loop_nil (delta : List TRule) :
    ∀ (fuel : Nat) (c : Finset String), closure_loop delta fuel [] c = c := by
  intro fuel c
  cases fuel <;> rfl

lemma closure_loop_spec (delta : List TRule) (U : Finset String)
    (hU : ∀ t ∈ delta, t.2.1 = "&" → t.2.2 ∈ U) :
    ∀ (fuel : Nat) (stack : List String) (closure : Finset String),
    (∀ x ∈ stack, x ∈ closure) →
    (∀ x ∈ closure, x ∈ stack ∨
      ∀ t ∈ delta, t.1 = x → t.2.1 = "&" → t.2.2 ∈ closure) →
    closure ⊆ U →
    stack.length + 2 * U.card ≤ fuel + 2 * closure.card →
    closure ⊆ closure_loop delta fuel stack closure ∧
    (∀ x ∈ closure_loop delta fuel stack closure,
      ∃ s ∈ closure, Relation.ReflTransGen (epsStep delta) s x) ∧
    (∀ x ∈ closure_loop delta fuel stack closure,
      ∀ t ∈ delta, t.1 = x → t.2.1 = "&" →
      t.2.2 ∈ closure_loop delta fuel stack closure) := by
  intro fuel
  induction fuel with
  | zero =>
    intro stack closure h1 h2 h3 hfuel
    have hcard : closure.card ≤ U.card := Finset.card_le_card h3
    have hstack : stack = [] := by
      cases stack with
      | nil => rfl
      | cons a s =>
        exfalso
        simp only [List.length_cons] at hfuel
        omega
    subst hstack
    rw [closure_loop_nil]
    refine ⟨fun x hx => hx, fun x hx => ⟨x, hx, Relation.ReflTransGen.refl⟩,
      fun x hx t ht ha hb => ?_⟩
    rcases h2 x hx with h | h
    · exact absurd h (List.not_mem_nil x)
    · exact h t ht ha hb
  | succ fuel ih =>
    intro stack closure h1 h2 h3 hfuel
    cases stack with
    | nil =>
      rw [closure_loop_nil]
      refine ⟨fun x hx => hx, fun x hx => ⟨x, hx, Relation.ReflTransGen.refl⟩,
        fun x hx t ht ha hb => ?_⟩
      rcases h2 x hx with h | h
      · exact absurd h (List.not_mem_nil x)
      · exact h t ht ha hb
    | cons current rest =>
      have hstep : closure_loop delta (fuel + 1) (current :: rest) closure =
          closure_loop delta fuel
            (delta.foldl (closure_body current) (rest, closure)).1
            (delta.foldl (closure_body current) (rest, closure)).2 := rfl
      set st := delta.foldl (closure_body current) (rest, closure) with hst
      have nh1 : ∀ x ∈ st.1, x ∈ st.2 := by
        intro x hx
        rcases closure_fold_stack_new current delta rest closure x hx with h | h
        · exact closure_fold_mono current delta rest closure
            (h1 x (List.mem_cons_of_mem _ h))
        · exact h
      have nh2 : ∀ x ∈ st.2, x ∈ st.1 ∨
          ∀ t ∈ delta, t.1 = x → t.2.1 = "&" → t.2.2 ∈ st.2 := by
        intro x hx
        rcases closure_fold_closure_stack current delta rest closure x hx with h | h
        · rcases h2 x h with hh | hh
          · rcases List.mem_cons.mp hh with he | hm
            · subst he
              exact Or.inr (fun t ht ha hb =>
                closure_fold_complete x delta rest closure t ht ha hb)
            · exact Or.inl (closure_fold_stack_mono current delta rest closure x hm)
          · exact Or.inr (fun t ht ha hb =>
              closure_fold_mono current delta rest closure (hh t ht ha hb))
        · exact Or.inl h
      have nh3 : st.2 ⊆ U := by
        intro x hx
        rcases closure_fold_new current delta rest closure x hx with h | h
        · exact h3 h
        · exact hU (current, ("&", x)) h rfl
      have nhfuel : st.1.length + 2 * U.card ≤ fuel + 2 * st.2.card := by
        have hm := closure_fold_measure current delta rest closure
        rw [← hst] at hm
        simp only [List.length_cons] at hfuel
        omega
      obtain ⟨ih1, ih2, ih3⟩ := ih st.1 st.2 nh1 nh2 nh3 nhfuel
      rw [hstep]
      refine ⟨(closure_fold_mono current delta rest closure).trans ih1, ?_, ih3⟩
      intro x hx
      obtain ⟨s', hs', hrtg⟩ := ih2 x hx
      rcases closure_fold_new current delta rest closure s' hs' with h | h
      · exact ⟨s', h, hrtg⟩
      · refine ⟨current, h1 current (List.mem_cons_self _ _), ?_⟩
        exact (Relation.ReflTransGen.single h).trans hrtg

lemma closure_loop_fuel_add (delta : List TRule) (U : Finset String)
    (hU : ∀ t ∈ delta, t.2.1 = "&" → t.2.2 ∈ U) :
    ∀ (fuel k : Nat) (stack : List String) (closure : Finset String),
    closure ⊆ U →
    stack.length + 2 * U.card ≤ fuel + 2 * closure.card →
    closure_loop delta (fuel + k) stack closure =
      closure_loop delta fuel stack closure := by
  intro fuel
  induction fuel with
  | zero =>
    intro k stack closure h3 hfuel
    have hcard : closure.card ≤ U.card := Finset.card_le_card h3
    have hstack : stack = [] := by
      cases stack with
      | nil => rfl
      | cons a s =>
        exfalso
        simp only [List.length_cons] at hfuel
        omega
    subst hstack
    rw [closure_loop_nil, closure_loop_nil]
  | succ fuel ih =>
    intro k stack closure h3 hfuel
    cases stack with
    | nil => rw [closure_loop_nil, closure_loop_nil]
    | cons current rest =>
      have heq : fuel + 1 + k = (fuel + k) + 1 := by omega
      rw [heq]
      set st := delta.foldl (closure_body current) (rest, closure) with hst
      have hstep1 : closure_loop delta ((fuel + k) + 1) (current :: rest) closure =
          closure_loop delta (fuel + k) st.1 st.2 := rfl
      have hstep2 : closure_loop delta (fuel + 1) (current :: rest) closure =
          closure_loop delta fuel st.1 st.2 := rfl
      rw [hstep1, hstep2]
      have nh3 : st.2 ⊆ U := by
        intro x hx
        rcases closure_fold_new current delta rest closure x hx with h | h
        · exact h3 h
        · exact hU (current, ("&", x)) h rfl
      have nhfuel : st.1.length + 2 * U.card ≤ fuel + 2 * st.2.card := by
        have hm := closure_fold_measure current delta rest closure
        rw [← hst] at hm
        simp only [List.length_cons] at hfuel
        omega
      exact ih k st.1 st.2 nh3 nhfuel

lemma mem_epsDests {delta : List TRule} {x : String} :
    x ∈ epsDests delta ↔ ∃ t ∈ delta, t.2.1 = "&" ∧ t.2.2 = x := by
  simp only [epsDests, List.mem_toFinset, List.mem_map, List.mem_filter,
    beq_iff_eq]
  constructor
  · rintro ⟨t, ⟨ht, ha⟩, hb⟩
    exact ⟨t, ht, ha, hb⟩
  · rintro ⟨t, ht, ha, hb⟩
    exact ⟨t, ⟨ht, ha⟩, hb⟩

lemma epsilon_closure_eq_loop (delta : List TRule) (S : Finset String) :
    epsilon_closure delta S =
      closure_loop delta (S.card + 2 * (S ∪ epsDests delta).card)
        (sortedNames S) S := rfl

lemma mem_epsilon_closure {delta : List TRule} {S : Finset String} {x : String} :
    x ∈ epsilon_closure delta S ↔
      ∃ s ∈ S, Relation.ReflTransGen (epsStep delta) s x := by
  have hU : ∀ t ∈ delta, t.2.1 = "&" → t.2.2 ∈ S ∪ epsDests delta := by
    intro t ht ha
    exact Finset.mem_union_right _ (mem_epsDests.mpr ⟨t, ht, ha, rfl⟩)
  obtain ⟨hA, hB, hC⟩ := closure_loop_spec delta (S ∪ epsDests delta) hU
    (S.card + 2 * (S ∪ epsDests delta).card) (sortedNames S) S
    (fun x hx => mem_sortedNames.mp hx)
    (fun x hx => Or.inl (mem_sortedNames.mpr hx))
    Finset.subset_union_left
    (by rw [length_sortedNames]; omega)
  rw [epsilon_closure_eq_loop]
  constructor
  · intro hx
    exact hB x hx
  · rintro ⟨s, hs, hrtg⟩
    induction hrtg with
    | refl => exact hA hs
    | tail hab hbc ihh => exact hC _ ihh _ hbc rfl rfl

lemma handle_closure_eq_loop (state : String) (delta : List TRule) :
    handle_closure state delta =
      closure_loop delta (1 + 2 * (insert state (epsDests delta)).card)
        [state] {state} := rfl

lemma mem_handle_closure {delta : List TRule} {q x : String} :
    x ∈ handle_closure q delta ↔ Relation.ReflTransGen (epsStep delta) q x := by
  have hU : ∀ t ∈ delta, t.2.1 = "&" → t.2.2 ∈ insert q (epsDests delta) := by
    intro t ht ha
    exact Finset.mem_insert_of_mem (mem_epsDests.mpr ⟨t, ht, ha, rfl⟩)
  obtain ⟨hA, hB, hC⟩ := closure_loop_spec delta (insert q (epsDests delta)) hU
    (1 + 2 * (insert q (epsDests delta)).card) [q] {q}
    (by intro x hx; simp only [List.mem_singleton] at hx; rw [hx]; exact Finset.mem_singleton_self _)
    (fun x hx => Or.inl (by simp only [Finset.mem_singleton] at hx; simp [hx]))
    (by intro x hx; simp only [Finset.mem_singleton] at hx; rw [hx]; exact Finset.mem_insert_self _ _)
    (by simp only [List.length_singleton, Finset.card_singleton]; omega)
  rw [handle_closure_eq_loop]
  constructor
  · intro hx
    obtain ⟨s, hs, hrtg⟩ := hB x hx
    rw [Finset.mem_singleton] at hs
    rwa [hs] at hrtg
  · intro hrtg
    induction hrtg with
    | refl => exact hA (Finset.mem_singleton_self q)
    | tail hab hbc ihh => exact hC _ ihh _ hbc rfl rfl

lemma subset_epsilon_closure {delta : List TRule} {S : Finset String} :
    S ⊆ epsilon_closure delta S :=
  fun x hx => mem_epsilon_closure.mpr ⟨x, hx, Relation.ReflTransGen.refl⟩

lemma epsilon_closure_subset {delta : List TRule} {S : Finset String} :
    epsilon_closure delta S ⊆ S ∪ epsDests delta := by
  intro x hx
  obtain ⟨s, hs, hrtg⟩ := mem_epsilon_closure.mp hx
  induction hrtg with
  | refl => exact Finset.mem_union_left _ hs
  | tail hab hbc ihh =>
    exact Finset.mem_union_right _ (mem_epsDests.mpr ⟨_, hbc, rfl, rfl⟩)

lemma epsilon_closure_nonempty {delta : List TRule} {S : Finset String}
    (h : S.Nonempty) : (epsilon_closure delta S).Nonempty := by
  obtain ⟨x, hx⟩ := h
  exact ⟨x, subset_epsilon_closure hx⟩

/-! Characterizations of find_transitions, idempotence of the closure, and
the correspondence between the powerset run and NFA accepting runs. -/

lemma mem_find_transitions {delta : List TRule} {S : Finset String}
    {sym d : String} :
    d ∈ find_transitions delta S sym ↔ ∃ o ∈ S, (o, (sym, d)) ∈ delta := by
  simp only [find_transitions, List.mem_toFinset, List.mem_map, List.mem_filter,
    Bool.and_eq_true, decide_eq_true_eq, beq_iff_eq]
  constructor
  · rintro ⟨t, ⟨ht, h1, h2⟩, h3⟩
    refine ⟨t.1, h1, ?_⟩
    have : (t.1, (sym, d)) = t := by rw [← h2, ← h3]
    rwa [this]
  · rintro ⟨o, ho, hmem⟩
    exact ⟨(o, (sym, d)), ⟨hmem, ho, rfl⟩, rfl⟩

lemma epsilon_closure_idem (delta : List TRule) (S : Finset String) :
    epsilon_closure delta (epsilon_closure delta S) = epsilon_closure delta S := by
  ext x
  rw [mem_epsilon_closure]
  constructor
  · rintro ⟨s, hs, hrtg⟩
    obtain ⟨u, hu, hrtg'⟩ := mem_epsilon_closure.mp hs
    exact mem_epsilon_closure.mpr ⟨u, hu, hrtg'.trans hrtg⟩
  · intro hx
    exact ⟨x, hx, Relation.ReflTransGen.refl⟩

lemma pstep_subset {delta : List TRule} {U : Finset String}
    (hU : ∀ t ∈ delta, t.2.2 ∈ U) (V : Finset String) (a : String) :
    pstep delta V a ⊆ U := by
  intro x hx
  rcases Finset.mem_union.mp (epsilon_closure_subset hx) with h | h
  · obtain ⟨o, _, hmem⟩ := mem_find_transitions.mp h
    exact hU (o, (a, x)) hmem
  · obtain ⟨t, ht, _, he⟩ := mem_epsDests.mp h
    rw [← he]
    exact hU t ht

lemma nfaRun_nil (delta : List TRule) (s q : String) :
    NfaRun delta s [] q ↔ Relation.ReflTransGen (epsStep delta) s q := Iff.rfl

lemma nfaRun_cons (delta : List TRule) (s : String) (c : Char) (cs : List Char)
    (q : String) :
    NfaRun delta s (c :: cs) q ↔ ∃ q1 q2,
      Relation.ReflTransGen (epsStep delta) s q1 ∧
      (q1, (String.mk [c], q2)) ∈ delta ∧ NfaRun delta q2 cs q := Iff.rfl

lemma mem_powerRun_ec (delta : List TRule) :
    ∀ (p : List Char) (X : Finset String) (q : String),
    q ∈ powerRun delta (epsilon_closure delta X) p ↔
      ∃ s ∈ X, NfaRun delta s p q := by
  intro p
  induction p with
  | nil =>
    intro X q
    show q ∈ epsilon_closure delta X ↔ _
    rw [mem_epsilon_closure]
    rfl
  | cons c cs ih =>
    intro X q
    have hstep : powerRun delta (epsilon_closure delta X) (c :: cs) =
        powerRun delta
          (epsilon_closure delta
            (find_transitions delta (epsilon_closure delta X) (String.mk [c])))
          cs := rfl
    rw [hstep, ih]
    constructor
    · rintro ⟨s', hs', hrun⟩
      obtain ⟨o, ho, hmem⟩ := mem_find_transitions.mp hs'
      obtain ⟨s, hs, hrtg⟩ := mem_epsilon_closure.mp ho
      exact ⟨s, hs, o, s', hrtg, hmem, hrun⟩
    · rintro ⟨s, hs, q1, q2, hrtg, hmem, hrun⟩
      refine ⟨q2, ?_, hrun⟩
      exact mem_find_transitions.mpr
        ⟨q1, mem_epsilon_closure.mpr ⟨s, hs, hrtg⟩, hmem⟩

lemma live_run_eq_powerRun_take (delta : List TRule) :
    ∀ (w : List Char) (V : Finset String),
    live_run delta V w = powerRun delta V (w.take (live_len delta V w)) := by
  intro w
  induction w with
  | nil => intro V; rfl
  | cons c cs ih =>
    intro V
    by_cases h : pstep delta V (String.mk [c]) = ∅
    · simp only [live_run, live_len, if_pos h]
      rfl
    · simp only [live_run, live_len, if_neg h]
      rw [List.take_succ_cons]
      show live_run delta (pstep delta V (String.mk [c])) cs =
        powerRun delta (pstep delta V (String.mk [c])) _
      exact ih _

lemma live_run_mem_visited {delta : List TRule}
    (P : Finset String → Prop)
    (hstep : ∀ V a, P V → pstep delta V a ≠ ∅ → P (pstep delta V a)) :
    ∀ (w : List Char) (V : Finset String), P V → P (live_run delta V w) := by
  intro w
  induction w with
  | nil => intro V hV; exact hV
  | cons c cs ih =>
    intro V hV
    by_cases h : pstep delta V (String.mk [c]) = ∅
    · simp only [live_run, if_pos h]; exact hV
    · simp only [live_run, if_neg h]
      exact ih _ (hstep V _ hV h)

/-! Worklist invariants of the conversion loop. -/

lemma conv_body_eq (delta : List TRule) (current : Finset String)
    (q v : List (Finset String)) (nd : List TRule) (symbol : String) :
    conv_body delta current (q, v, nd) symbol =
      if pstep delta current symbol ≠ ∅ then
        if pstep delta current symbol ∉ v then
          (pstep delta current symbol :: q, v ++ [pstep delta current symbol],
            nd ++ [(state_to_str current,
              (symbol, state_to_str (pstep delta current symbol)))])
        else (q, v,
          nd ++ [(state_to_str current,
            (symbol, state_to_str (pstep delta current symbol)))])
      else (q, v, nd) := rfl

lemma conv_fold_v_mono (delta : List TRule) (current : Finset String) :
    ∀ (l : List String) (q v : List (Finset String)) (nd : List TRule),
    ∀ V ∈ v, V ∈ (l.foldl (conv_body delta current) (q, v, nd)).2.1 := by
  intro l
  induction l with
  | nil => intro q v nd V hV; exact hV
  | cons a as ih =>
    intro q v nd V hV
    rw [List.foldl_cons, conv_body_eq]
    by_cases h1 : pstep delta current a = ∅
    · rw [if_neg (not_not_intro h1)]
      exact ih _ _ _ V hV
    · rw [if_pos h1]
      by_cases h2 : pstep delta current a ∈ v
      · rw [if_neg (not_not_intro h2)]
        exact ih _ _ _ V hV
      · rw [if_pos h2]
        exact ih _ _ _ V (List.mem_append_left _ hV)

lemma conv_fold_q_mono (delta : List TRule) (current : Finset String) :
    ∀ (l : List String) (q v : List (Finset String)) (nd : List TRule),
    ∀ V ∈ q, V ∈ (l.foldl (conv_body delta current) (q, v, nd)).1 := by
  intro l
  induction l with
  | nil => intro q v nd V hV; exact hV
  | cons a as ih =>
    intro q v nd V hV
    rw [List.foldl_cons, conv_body_eq]
    by_cases h1 : pstep delta current a = ∅
    · rw [if_neg (not_not_intro h1)]
      exact ih _ _ _ V hV
    · rw [if_pos h1]
      by_cases h2 : pstep delta current a ∈ v
      · rw [if_neg (not_not_intro h2)]
        exact ih _ _ _ V hV
      · rw [if_pos h2]
        exact ih _ _ _ V (List.mem_cons_of_mem _ hV)

lemma conv_fold_d_mono (delta : List TRule) (current : Finset String) :
    ∀ (l : List String) (q v : List (Finset String)) (nd : List TRule),
    ∀ t ∈ nd, t ∈ (l.foldl (conv_body delta current) (q, v, nd)).2.2 := by
  intro l
  induction l with
  | nil => intro q v nd t ht; exact ht
  | cons a as ih =>
    intro q v nd t ht
    rw [List.foldl_cons, conv_body_eq]
    by_cases h1 : pstep delta current a = ∅
    · rw [if_neg (not_not_intro h1)]
      exact ih _ _ _ t ht
    · rw [if_pos h1]
      by_cases h2 : pstep delta current a ∈ v
      · rw [if_neg (not_not_intro h2)]
        exact ih _ _ _ t (List.mem_append_left _ ht)
      · rw [if_pos h2]
        exact ih _ _ _ t (List.mem_append_left _ ht)

lemma conv_fold_v_new (delta : List TRule) (current : Finset String) :
    ∀ (l : List String) (q v : List (Finset String)) (nd : List TRule),
    ∀ V ∈ (l.foldl (conv_body delta current) (q, v, nd)).2.1,
    V ∈ v ∨ ∃ a ∈ l, V = pstep delta current a ∧ V ≠ ∅ := by
  intro l
  induction l with
  | nil => intro q v nd V hV; exact Or.inl hV
  | cons a as ih =>
    intro q v nd V hV
    rw [List.foldl_cons, conv_body_eq] at hV
    by_cases h1 : pstep delta current a = ∅
    · rw [if_neg (not_not_intro h1)] at hV
      rcases ih _ _ _ V hV with h | h
      · exact Or.inl h
      · obtain ⟨b, hb, he, hne⟩ := h
        exact Or.inr ⟨b, List.mem_cons_of_mem _ hb, he, hne⟩
    · rw [if_pos h1] at hV
      by_cases h2 : pstep delta current a ∈ v
      · rw [if_neg (not_not_intro h2)] at hV
        rcases ih _ _ _ V hV with h | h
        · exact Or.inl h
        · obtain ⟨b, hb, he, hne⟩ := h
          exact Or.inr ⟨b, List.mem_cons_of_mem _ hb, he, hne⟩
      · rw [if_pos h2] at hV
        rcases ih _ _ _ V hV with h | h
        · rcases List.mem_append.mp h with h' | h'
          · exact Or.inl h'
          · rw [List.mem_singleton] at h'
            exact Or.inr ⟨a, List.mem_cons_self _ _, h', h' ▸ h1⟩
        · obtain ⟨b, hb, he, hne⟩ := h
          exact Or.inr ⟨b, List.mem_cons_of_mem _ hb, he, hne⟩

lemma conv_fold_q_new (delta : List TRule) (current : Finset String) :
    ∀ (l : List String) (q v : List (Finset String)) (nd : List TRule),
    ∀ V ∈ (l.foldl (conv_body delta current) (q, v, nd)).1,
    V ∈ q ∨ V ∈ (l.foldl (conv_body delta current) (q, v, nd)).2.1 := by
  intro l
  induction l with
  | nil => intro q v nd V hV; exact Or.inl hV
  | cons a as ih =>
    intro q v nd V hV
    rw [List.foldl_cons, conv_body_eq] at hV ⊢
    by_cases h1 : pstep delta current a = ∅
    · rw [if_neg (not_not_intro h1)] at hV ⊢
      exact ih _ _ _ V hV
    · rw [if_pos h1] at hV ⊢
      by_cases h2 : pstep delta current a ∈ v
      · rw [if_neg (not_not_intro h2)] at hV ⊢
        exact ih _ _ _ V hV
      · rw [if_pos h2] at hV ⊢
        rcases ih _ _ _ V hV with h | h
        · rcases List.mem_cons.mp h with h' | h'
          · rw [h']
            exact Or.inr (conv_fold_v_mono delta current as _ _ _ _
              (List.mem_append_right _ (List.mem_singleton_self _)))
          · exact Or.inl h'
        · exact Or.inr h

lemma conv_fold_v_q (delta : List TRule) (current : Finset String) :
    ∀ (l : List String) (q v : List (Finset String)) (nd : List TRule),
    ∀ V ∈ (l.foldl (conv_body delta current) (q, v, nd)).2.1,
    V ∈ v ∨ V ∈ (l.foldl (conv_body delta current) (q, v, nd)).1 := by
  intro l
  induction l with
  | nil => intro q v nd V hV; exact Or.inl hV
  | cons a as ih =>
    intro q v nd V hV
    rw [List.foldl_cons, conv_body_eq] at hV ⊢
    by_cases h1 : pstep delta current a = ∅
    · rw [if_neg (not_not_intro h1)] at hV ⊢
      exact ih _ _ _ V hV
    · rw [if_pos h1] at hV ⊢
      by_cases h2 : pstep delta current a ∈ v
      · rw [if_neg (not_not_intro h2)] at hV ⊢
        exact ih _ _ _ V hV
      · rw [if_pos h2] at hV ⊢
        rcases ih _ _ _ V hV with h | h
        · rcases List.mem_append.mp h with h' | h'
          · exact Or.inl h'
          · rw [List.mem_singleton] at h'
            rw [h']
            exact Or.inr (conv_fold_q_mono delta current as _ _ _ _
              (List.mem_cons_self _ _))
        · exact Or.inr h

lemma conv_fold_complete (delta : List TRule) (current : Finset String) :
    ∀ (l : List String) (q v : List (Finset String)) (nd : List TRule),
    ∀ a ∈ l, pstep delta current a ≠ ∅ →
    pstep delta current a ∈ (l.foldl (conv_body delta current) (q, v, nd)).2.1 ∧
    (state_to_str current, (a, state_to_str (pstep delta current a))) ∈
      (l.foldl (conv_body delta current) (q, v, nd)).2.2 := by
  intro l
  induction l with
  | nil => intro q v nd a ha; exact absurd ha (List.not_mem_nil a)
  | cons b bs ih =>
    intro q v nd a ha hne
    rcases List.mem_cons.mp ha with he | hm
    · subst he
      rw [List.foldl_cons, conv_body_eq, if_pos hne]
      by_cases h2 : pstep delta current a ∈ v
      · rw [if_neg (not_not_intro h2)]
        constructor
        · exact conv_fold_v_mono delta current bs _ _ _ _ h2
        · exact conv_fold_d_mono delta current bs _ _ _ _
            (List.mem_append_right _ (List.mem_singleton_self _))
      · rw [if_pos h2]
        constructor
        · exact conv_fold_v_mono delta current bs _ _ _ _
            (List.mem_append_right _ (List.mem_singleton_self _))
        · exact conv_fold_d_mono delta current bs _ _ _ _
            (List.mem_append_right _ (List.mem_singleton_self _))
    · rw [List.foldl_cons, conv_body_eq]
      by_cases h1 : pstep delta current b = ∅
      · rw [if_neg (not_not_intro h1)]
        exact ih _ _ _ a hm hne
      · rw [if_pos h1]
        by_cases h2 : pstep delta current b ∈ v
        · rw [if_neg (not_not_intro h2)]
          exact ih _ _ _ a hm hne
        · rw [if_pos h2]
          exact ih _ _ _ a hm hne

lemma conv_fold_d_new (delta : List TRule) (current : Finset String) :
    ∀ (l : List String) (q v : List (Finset String)) (nd : List TRule),
    ∀ t ∈ (l.foldl (conv_body delta current) (q, v, nd)).2.2,
    t ∈ nd ∨ ∃ a ∈ l, pstep delta current a ≠ ∅ ∧
      t = (state_to_str current, (a, state_to_str (pstep delta current a))) := by
  intro l
  induction l with
  | nil => intro q v nd t ht; exact Or.inl ht
  | cons a as ih =>
    intro q v nd t ht
    rw [List.foldl_cons, conv_body_eq] at ht
    by_cases h1 : pstep delta current a = ∅
    · rw [if_neg (not_not_intro h1)] at ht
      rcases ih _ _ _ t ht with h | h
      · exact Or.inl h
      · obtain ⟨b, hb, hne, he⟩ := h
        exact Or.inr ⟨b, List.mem_cons_of_mem _ hb, hne, he⟩
    · rw [if_pos h1] at ht
      have hsplit : ∀ (q' v' : List (Finset String)),
          t ∈ (as.foldl (conv_body delta current) (q', v',
            nd ++ [(state_to_str current,
              (a, state_to_str (pstep delta current a)))])).2.2 →
          t ∈ nd ∨ ∃ b ∈ a :: as, pstep delta current b ≠ ∅ ∧
            t = (state_to_str current, (b, state_to_str (pstep delta current b))) := by
        intro q' v' ht'
        rcases ih _ _ _ t ht' with h | h
        · rcases List.mem_append.mp h with h' | h'
          · exact Or.inl h'
          · rw [List.mem_singleton] at h'
            exact Or.inr ⟨a, List.mem_cons_self _ _, h1, h'⟩
        · obtain ⟨b, hb, hne, he⟩ := h
          exact Or.inr ⟨b, List.mem_cons_of_mem _ hb, hne, he⟩
      by_cases h2 : pstep delta current a ∈ v
      · rw [if_neg (not_not_intro h2)] at ht
        exact hsplit _ _ ht
      · rw [if_pos h2] at ht
        exact hsplit _ _ ht

lemma conv_fold_measure (delta : List TRule) (current : Finset String) :
    ∀ (l : List String) (q v : List (Finset String)) (nd : List TRule),
    (l.foldl (conv_body delta current) (q, v, nd)).1.length + 2 * v.toFinset.card ≤
      q.length +
      2 * (l.foldl (conv_body delta current) (q, v, nd)).2.1.toFinset.card := by
  intro l
  induction l with
  | nil => intro q v nd; simp only [List.foldl_nil]; omega
  | cons a as ih =>
    intro q v nd
    rw [List.foldl_cons, conv_body_eq]
    by_cases h1 : pstep delta current a = ∅
    · rw [if_neg (not_not_intro h1)]
      exact ih _ _ _
    · rw [if_pos h1]
      by_cases h2 : pstep delta current a ∈ v
      · rw [if_neg (not_not_intro h2)]
        exact ih _ _ _
      · rw [if_pos h2]
        have hcard : ((v ++ [pstep delta current a]).toFinset).card =
            v.toFinset.card + 1 := by
          rw [List.toFinset_append, List.toFinset_cons, List.toFinset_nil]
          have hins : v.toFinset ∪ insert (pstep delta current a) ∅ =
              insert (pstep delta current a) v.toFinset := by
            ext z
            simp only [Finset.mem_union, Finset.mem_insert, Finset.not_mem_empty,
              or_false]
            tauto
          rw [hins, Finset.card_insert_of_not_mem
            (fun hc => h2 (List.mem_toFinset.mp hc))]
        have := ih (pstep delta current a :: q) (v ++ [pstep delta current a])
          (nd ++ [(state_to_str current, (a, state_to_str (pstep delta current a)))])
        rw [hcard] at this
        simp only [List.length_cons] at this
        omega

lemma convert_loop_nil (alphabet : List String) (delta : List TRule) :
    ∀ (fuel : Nat) (visited : List (Finset String)) (nd : List TRule),
    convert_loop alphabet delta fuel [] visited nd = (visited, nd) := by
  intro fuel visited nd
  cases fuel <;> rfl

lemma convert_loop_spec (alphabet : List String) (delta : List TRule)
    (U : Finset String) (hU : ∀ t ∈ delta, t.2.2 ∈ U) :
    ∀ (fuel : Nat) (queue visited : List (Finset String)) (nd : List TRule),
    (∀ V ∈ queue, V ⊆ U ∧ V ≠ ∅) →
    (∀ V ∈ visited, V ⊆ U ∧ V ≠ ∅) →
    (∀ V ∈ visited, V ∈ queue ∨ ∀ a ∈ alphabet, pstep delta V a ≠ ∅ →
      pstep delta V a ∈ visited ∧
      (state_to_str V, (a, state_to_str (pstep delta V a))) ∈ nd) →
    (∀ t ∈ nd, ∃ V ∈ visited, ∃ a ∈ alphabet, pstep delta V a ≠ ∅ ∧
      t = (state_to_str V, (a, state_to_str (pstep delta V a)))) →
    queue.length + 2 * 2 ^ U.card ≤ fuel + 2 * visited.toFinset.card →
    (∀ V ∈ visited, V ∈ (convert_loop alphabet delta fuel queue visited nd).1) ∧
    (∀ V ∈ queue, V ∈ (convert_loop alphabet delta fuel queue visited nd).1) ∧
    (∀ V ∈ (convert_loop alphabet delta fuel queue visited nd).1,
      V ⊆ U ∧ V ≠ ∅) ∧
    (∀ V ∈ (convert_loop alphabet delta fuel queue visited nd).1,
      ∀ a ∈ alphabet, pstep delta V a ≠ ∅ →
      pstep delta V a ∈ (convert_loop alphabet delta fuel queue visited nd).1 ∧
      (state_to_str V, (a, state_to_str (pstep delta V a))) ∈
        (convert_loop alphabet delta fuel queue visited nd).2) ∧
    (∀ t ∈ (convert_loop alphabet delta fuel queue visited nd).2,
      ∃ V ∈ (convert_loop alphabet delta fuel queue visited nd).1,
      ∃ a ∈ alphabet, pstep delta V a ≠ ∅ ∧
      t = (state_to_str V, (a, state_to_str (pstep delta V a)))) := by
  intro fuel
  induction fuel with
  | zero =>
    intro queue visited nd hq hv hc hd hfuel
    have hpow : visited.toFinset ⊆ U.powerset := by
      intro V hV
      exact Finset.mem_powerset.mpr (hv V (List.mem_toFinset.mp hV)).1
    have hcard : visited.toFinset.card ≤ 2 ^ U.card := by
      have := Finset.card_le_card hpow
      rwa [Finset.card_powerset] at this
    have hqnil : queue = [] := by
      cases queue with
      | nil => rfl
      | cons a s =>
        exfalso
        simp only [List.length_cons] at hfuel
        omega
    subst hqnil
    rw [convert_loop_nil]
    refine ⟨fun V hV => hV, fun V hV => absurd hV (List.not_mem_nil V),
      hv, ?_, ?_⟩
    · intro V hV a ha hne
      rcases hc V hV with h | h
      · exact absurd h (List.not_mem_nil V)
      · exact h a ha hne
    · intro t ht
      exact hd t ht
  | succ fuel ih =>
    intro queue visited nd hq hv hc hd hfuel
    cases queue with
    | nil =>
      rw [convert_loop_nil]
      refine ⟨fun V hV => hV, fun V hV => absurd hV (List.not_mem_nil V),
        hv, ?_, ?_⟩
      · intro V hV a ha hne
        rcases hc V hV with h | h
        · exact absurd h (List.not_mem_nil V)
        · exact h a ha hne
      · intro t ht
        exact hd t ht
    | cons current rest =>
      have hcur : current ⊆ U ∧ current ≠ ∅ := hq current (List.mem_cons_self _ _)
      set v1 := visited ++ [current] with hv1
      set st := alphabet.foldl (conv_body delta current) (rest, v1, nd) with hst
      have hstep : convert_loop alphabet delta (fuel + 1) (current :: rest)
          visited nd = convert_loop alphabet delta fuel st.1 st.2.1 st.2.2 := rfl
      have hv1mem : ∀ V ∈ v1, V ⊆ U ∧ V ≠ ∅ := by
        intro V hV
        rcases List.mem_append.mp hV with h | h
        · exact hv V h
        · rw [List.mem_singleton] at h
          rw [h]
          exact hcur
      have nhv : ∀ V ∈ st.2.1, V ⊆ U ∧ V ≠ ∅ := by
        intro V hV
        rcases conv_fold_v_new delta current alphabet rest v1 nd V hV with h | h
        · exact hv1mem V h
        · obtain ⟨a, _, he, hne⟩ := h
          rw [he] at hne ⊢
          exact ⟨pstep_subset hU _ _, hne⟩
      have nhq : ∀ V ∈ st.1, V ⊆ U ∧ V ≠ ∅ := by
        intro V hV
        rcases conv_fold_q_new delta current alphabet rest v1 nd V hV with h | h
        · exact hq V (List.mem_cons_of_mem _ h)
        · exact nhv V h
      have nhc : ∀ V ∈ st.2.1, V ∈ st.1 ∨ ∀ a ∈ alphabet,
          pstep delta V a ≠ ∅ → pstep delta V a ∈ st.2.1 ∧
          (state_to_str V, (a, state_to_str (pstep delta V a))) ∈ st.2.2 := by
        intro V hV
        rcases conv_fold_v_q delta current alphabet rest v1 nd V hV with h | h
        · rcases List.mem_append.mp h with h' | h'
          · rcases hc V h' with hh | hh
            · rcases List.mem_cons.mp hh with he | hm
              · rw [he]
                exact Or.inr (fun a ha hne =>
                  conv_fold_complete delta current alphabet rest v1 nd a ha hne)
              · exact Or.inl (conv_fold_q_mono delta current alphabet rest v1 nd V hm)
            · refine Or.inr (fun a ha hne => ?_)
              obtain ⟨hm1, hm2⟩ := hh a ha hne
              exact ⟨conv_fold_v_mono delta current alphabet rest v1 nd _
                  (List.mem_append_left _ hm1),
                conv_fold_d_mono delta current alphabet rest v1 nd _ hm2⟩
          · rw [List.mem_singleton] at h'
            rw [h']
            exact Or.inr (fun a ha hne =>
              conv_fold_complete delta current alphabet rest v1 nd a ha hne)
        · exact Or.inl h
      have nhd : ∀ t ∈ st.2.2, ∃ V ∈ st.2.1, ∃ a ∈ alphabet,
          pstep delta V a ≠ ∅ ∧
          t = (state_to_str V, (a, state_to_str (pstep delta V a))) := by
        intro t ht
        rcases conv_fold_d_new delta current alphabet rest v1 nd t ht with h | h
        · obtain ⟨V, hV, a, ha, hne, he⟩ := hd t h
          exact ⟨V, conv_fold_v_mono delta current alphabet rest v1 nd V
            (List.mem_append_left _ hV), a, ha, hne, he⟩
        · obtain ⟨a, ha, hne, he⟩ := h
          exact ⟨current, conv_fold_v_mono delta current alphabet rest v1 nd current
            (List.mem_append_right _ (List.mem_singleton_self _)), a, ha, hne, he⟩
      have hmono_card : visited.toFinset.card ≤ v1.toFinset.card := by
        apply Finset.card_le_card
        intro x hx
        rw [hv1, List.toFinset_append]
        exact Finset.mem_union_left _ hx
      have nhfuel : st.1.length + 2 * 2 ^ U.card ≤
          fuel + 2 * st.2.1.toFinset.card := by
        have hm := conv_fold_measure delta current alphabet rest v1 nd
        rw [← hst] at hm
        simp only [List.length_cons] at hfuel
        omega
      obtain ⟨ih1, ih2, ih3, ih4, ih5⟩ := ih st.1 st.2.1 st.2.2 nhq nhv nhc nhd nhfuel
      rw [hstep]
      refine ⟨?_, ?_, ih3, ih4, ih5⟩
      · intro V hV
        exact ih1 V (conv_fold_v_mono delta current alphabet rest v1 nd V
          (List.mem_append_left _ hV))
      · intro V hV
        rcases List.mem_cons.mp hV with he | hm
        · rw [he]
          exact ih1 current (conv_fold_v_mono delta current alphabet rest v1 nd
            current (List.mem_append_right _ (List.mem_singleton_self _)))
        · exact ih2 V (conv_fold_q_mono delta current alphabet rest v1 nd V hm)

lemma convert_loop_fuel_add (alphabet : List String) (delta : List TRule)
    (U : Finset String) (hU : ∀ t ∈ delta, t.2.2 ∈ U) :
    ∀ (fuel k : Nat) (queue visited : List (Finset String)) (nd : List TRule),
    (∀ V ∈ queue, V ⊆ U) →
    (∀ V ∈ visited, V ⊆ U) →
    queue.length + 2 * 2 ^ U.card ≤ fuel + 2 * visited.toFinset.card →
    convert_loop alphabet delta (fuel + k) queue visited nd =
      convert_loop alphabet delta fuel queue visited nd := by
  intro fuel
  induction fuel with
  | zero =>
    intro k queue visited nd hq hv hfuel
    have hpow : visited.toFinset ⊆ U.powerset := by
      intro V hV
      exact Finset.mem_powerset.mpr (hv V (List.mem_toFinset.mp hV))
    have hcard : visited.toFinset.card ≤ 2 ^ U.card := by
      have := Finset.card_le_card hpow
      rwa [Finset.card_powerset] at this
    have hqnil : queue = [] := by
      cases queue with
      | nil => rfl
      | cons a s =>
        exfalso
        simp only [List.length_cons] at hfuel
        omega
    subst hqnil
    rw [convert_loop_nil, convert_loop_nil]
  | succ fuel ih =>
    intro k queue visited nd hq hv hfuel
    cases queue with
    | nil => rw [convert_loop_nil, convert_loop_nil]
    | cons current rest =>
      have heq : fuel + 1 + k = (fuel + k) + 1 := by omega
      rw [heq]
      set v1 := visited ++ [current] with hv1
      set st := alphabet.foldl (conv_body delta current) (rest, v1, nd) with hst
      have hstep1 : convert_loop alphabet delta ((fuel + k) + 1) (current :: rest)
          visited nd = convert_loop alphabet delta (fuel + k) st.1 st.2.1 st.2.2 := rfl
      have hstep2 : convert_loop alphabet delta (fuel + 1) (current :: rest)
          visited nd = convert_loop alphabet delta fuel st.1 st.2.1 st.2.2 := rfl
      rw [hstep1, hstep2]
      have hv1mem : ∀ V ∈ v1, V ⊆ U := by
        intro V hV
        rcases List.mem_append.mp hV with h | h
        · exact hv V h
        · rw [List.mem_singleton] at h
          rw [h]
          exact hq current (List.mem_cons_self _ _)
      have nhv : ∀ V ∈ st.2.1, V ⊆ U := by
        intro V hV
        rcases conv_fold_v_new delta current alphabet rest v1 nd V hV with h | h
        · exact hv1mem V h
        · obtain ⟨a, _, he, hne⟩ := h
          rw [he]
          exact pstep_subset hU _ _
      have nhq : ∀ V ∈ st.1, V ⊆ U := by
        intro V hV
        rcases conv_fold_q_new delta current alphabet rest v1 nd V hV with h | h
        · exact hq V (List.mem_cons_of_mem _ h)
        · exact nhv V h
      have hmono_card : visited.toFinset.card ≤ v1.toFinset.card := by
        apply Finset.card_le_card
        intro x hx
        rw [hv1, List.toFinset_append]
        exact Finset.mem_union_left _ hx
      have nhfuel : st.1.length + 2 * 2 ^ U.card ≤
          fuel + 2 * st.2.1.toFinset.card := by
        have hm := conv_fold_measure delta current alphabet rest v1 nd
        rw [← hst] at hm
        simp only [List.length_cons] at hfuel
        omega
      exact ih k st.1 st.2.1 st.2.2 nhq nhv nhfuel

lemma convU_spec (A : Automaton) : ∀ t ∈ A.delta, t.2.2 ∈ convU A := by
  intro t ht
  exact Finset.mem_insert_of_mem (List.mem_toFinset.mpr
    (List.mem_map.mpr ⟨t, ht, rfl⟩))

lemma conv_start_subset (A : Automaton) : conv_start A ⊆ convU A := by
  intro x hx
  rcases Finset.mem_union.mp (epsilon_closure_subset hx) with h | h
  · rw [Finset.mem_singleton] at h
    rw [h]
    exact Finset.mem_insert_self _ _
  · obtain ⟨t, ht, _, he⟩ := mem_epsDests.mp h
    rw [← he]
    exact convU_spec A t ht

lemma conv_start_nonempty (A : Automaton) : conv_start A ≠ ∅ := by
  apply Finset.nonempty_iff_ne_empty.mp
  exact epsilon_closure_nonempty (Finset.singleton_nonempty A.initial_state)

lemma conv_run_spec (A : Automaton) :
    (∀ V ∈ (conv_run A).1, V ⊆ convU A ∧ V ≠ ∅) ∧
    conv_start A ∈ (conv_run A).1 ∧
    (∀ V ∈ (conv_run A).1, ∀ a ∈ A.alphabet, pstep A.delta V a ≠ ∅ →
      pstep A.delta V a ∈ (conv_run A).1 ∧
      (state_to_str V, (a, state_to_str (pstep A.delta V a))) ∈ (conv_run A).2) ∧
    (∀ t ∈ (conv_run A).2, ∃ V ∈ (conv_run A).1, ∃ a ∈ A.alphabet,
      pstep A.delta V a ≠ ∅ ∧
      t = (state_to_str V, (a, state_to_str (pstep A.delta V a)))) := by
  obtain ⟨c1, c2, c3, c4, c5⟩ := convert_loop_spec A.alphabet A.delta (convU A)
    (convU_spec A) (conv_fuel A) [conv_start A] [] []
    (by
      intro V hV
      rw [List.mem_singleton] at hV
      rw [hV]
      exact ⟨conv_start_subset A, conv_start_nonempty A⟩)
    (fun V hV => absurd hV (List.not_mem_nil V))
    (fun V hV => absurd hV (List.not_mem_nil V))
    (fun t ht => absurd ht (List.not_mem_nil t))
    (by
      simp only [List.length_singleton, List.toFinset_nil, Finset.card_empty]
      rw [conv_fuel]
      omega)
  exact ⟨c3, c2 (conv_start A) (List.mem_singleton_self _), c4, c5⟩

/-! Tracking the DFA simulation of process along the powerset run. -/

lemma convert_alphabet (A : Automaton) :
    (convert_to_dfa A).alphabet = A.alphabet := rfl

lemma convert_initial (A : Automaton) :
    (convert_to_dfa A).initial_state = state_to_str (conv_start A) := rfl

lemma convert_delta (A : Automaton) :
    (convert_to_dfa A).delta = (conv_run A).2 := rfl

lemma convert_states (A : Automaton) :
    (convert_to_dfa A).states = (conv_run A).1.map state_to_str := rfl

lemma convert_final (A : Automaton) :
    (convert_to_dfa A).final_states =
      ((conv_run A).1.filter
        (fun V => decide (∃ q ∈ V, q ∈ A.final_states))).map state_to_str := rfl

lemma convU_subset_states {A : Automaton} (hinv : SatisfiesInvariants A) :
    ∀ x ∈ convU A, x ∈ A.states := by
  intro x hx
  rcases Finset.mem_insert.mp hx with h | h
  · rw [h]
    exact hinv.1
  · obtain ⟨t, ht, he⟩ := List.mem_map.mp (List.mem_toFinset.mp h)
    rw [← he]
    exact (hinv.2.2.1 t ht).2.1

lemma visited_nice {A : Automaton} (hinv : SatisfiesInvariants A)
    (hnice : NiceNames A) :
    ∀ V ∈ (conv_run A).1, V.Nonempty ∧
      (∀ x ∈ V, x ≠ "" ∧ ¬ ((',' : Char) ∈ x.data)) := by
  intro V hV
  obtain ⟨hsub, hne⟩ := (conv_run_spec A).1 V hV
  refine ⟨Finset.nonempty_iff_ne_empty.mpr hne, fun x hx => ?_⟩
  exact hnice x (convU_subset_states hinv x (hsub hx))

lemma visited_name_inj {A : Automaton} (hinv : SatisfiesInvariants A)
    (hnice : NiceNames A) :
    ∀ V ∈ (conv_run A).1, ∀ W ∈ (conv_run A).1,
    state_to_str V = state_to_str W → V = W := by
  intro V hV W hW h
  obtain ⟨hVne, hVn⟩ := visited_nice hinv hnice V hV
  obtain ⟨hWne, hWn⟩ := visited_nice hinv hnice W hW
  exact state_to_str_inj hVne hWne (fun x hx => (hVn x hx).2)
    (fun x hx => (hWn x hx).2) h

lemma visited_name_ne_empty {A : Automaton} (hinv : SatisfiesInvariants A)
    (hnice : NiceNames A) :
    ∀ V ∈ (conv_run A).1, state_to_str V ≠ "" := by
  intro V hV
  obtain ⟨hVne, hVn⟩ := visited_nice hinv hnice V hV
  exact state_to_str_ne_empty hVne (fun x hx => (hVn x hx).1)

lemma find?_eq_some_of_unique {α : Type} {p : α → Bool} {l : List α} {x : α}
    (hx : x ∈ l) (hpx : p x = true)
    (huniq : ∀ y ∈ l, p y = true → y = x) : l.find? p = some x := by
  induction l with
  | nil => exact absurd hx (List.not_mem_nil x)
  | cons y ys ih =>
    by_cases hy : p y = true
    · rw [List.find?_cons_of_pos _ hy, huniq y (List.mem_cons_self _ _) hy]
    · rw [List.find?_cons_of_neg _ (by simpa using hy)]
      apply ih
      · rcases List.mem_cons.mp hx with he | hm
        · exact absurd (he ▸ hpx) hy
        · exact hm
      · intro z hz hpz
        exact huniq z (List.mem_cons_of_mem _ hz) hpz

lemma conv_transition_some {A : Automaton} (hinv : SatisfiesInvariants A)
    (hnice : NiceNames A) {V : Finset String} {a : String}
    (hV : V ∈ (conv_run A).1) (ha : a ∈ A.alphabet)
    (hne : pstep A.delta V a ≠ ∅) :
    transition (conv_run A).2 (state_to_str V) a =
      some (state_to_str (pstep A.delta V a)) := by
  have hmem := ((conv_run_spec A).2.2.1 V hV a ha hne).2
  rw [transition]
  rw [find?_eq_some_of_unique hmem (by simp)]
  · rfl
  · intro y hy hpy
    obtain ⟨W, hW, b, hb, hbne, he⟩ := (conv_run_spec A).2.2.2 y hy
    rw [he] at hpy
    simp only [Bool.and_eq_true, beq_iff_eq] at hpy
    have hWV : W = V := visited_name_inj hinv hnice W hW V hV hpy.1
    rw [he, hWV, hpy.2]

lemma conv_transition_none {A : Automaton} (hinv : SatisfiesInvariants A)
    (hnice : NiceNames A) {V : Finset String} {a : String}
    (hV : V ∈ (conv_run A).1) (he : pstep A.delta V a = ∅) :
    transition (conv_run A).2 (state_to_str V) a = none := by
  rw [transition]
  rw [List.find?_eq_none.mpr]
  · rfl
  · intro y hy hpy
    obtain ⟨W, hW, b, hb, hbne, hye⟩ := (conv_run_spec A).2.2.2 y hy
    rw [hye] at hpy
    simp only [Bool.and_eq_true, beq_iff_eq] at hpy
    have hWV : W = V := visited_name_inj hinv hnice W hW V hV hpy.1
    rw [hWV, hpy.2] at hbne
    exact hbne he

lemma conv_sim_track {A : Automaton} (hinv : SatisfiesInvariants A)
    (hnice : NiceNames A) :
    ∀ (w : List Char) (V : Finset String), V ∈ (conv_run A).1 →
    (∀ c ∈ w, String.mk [c] ∈ A.alphabet) →
    sim (conv_run A).2 (state_to_str V) w =
      state_to_str (live_run A.delta V w) ∧
    live_run A.delta V w ∈ (conv_run A).1 := by
  intro w
  induction w with
  | nil => intro V hV _; exact ⟨rfl, hV⟩
  | cons c cs ih =>
    intro V hV hvalid
    have ha : String.mk [c] ∈ A.alphabet := hvalid c (List.mem_cons_self _ _)
    by_cases hne : pstep A.delta V (String.mk [c]) = ∅
    · have hnone := conv_transition_none hinv hnice hV hne
      constructor
      · show (match transition (conv_run A).2 (state_to_str V) (String.mk [c]) with
          | some next => if next = "" then state_to_str V
            else sim (conv_run A).2 next cs
          | none => state_to_str V) = _
        rw [hnone]
        simp only [live_run, if_pos hne]
      · simp only [live_run, if_pos hne]
        exact hV
    · have hT : pstep A.delta V (String.mk [c]) ∈ (conv_run A).1 :=
        ((conv_run_spec A).2.2.1 V hV _ ha hne).1
      have hsome := conv_transition_some hinv hnice hV ha hne
      have hTne : state_to_str (pstep A.delta V (String.mk [c])) ≠ "" :=
        visited_name_ne_empty hinv hnice _ hT
      obtain ⟨ih1, ih2⟩ := ih (pstep A.delta V (String.mk [c])) hT
        (fun c' hc' => hvalid c' (List.mem_cons_of_mem _ hc'))
      constructor
      · show (match transition (conv_run A).2 (state_to_str V) (String.mk [c]) with
          | some next => if next = "" then state_to_str V
            else sim (conv_run A).2 next cs
          | none => state_to_str V) = _
        rw [hsome]
        simp only [if_neg hTne]
        rw [ih1]
        simp only [live_run, if_neg hne]
      · simp only [live_run, if_neg hne]
        exact ih2

lemma conv_final_iff {A : Automaton} (hinv : SatisfiesInvariants A)
    (hnice : NiceNames A) {V : Finset String} (hV : V ∈ (conv_run A).1) :
    state_to_str V ∈ (convert_to_dfa A).final_states ↔
      ∃ q ∈ V, q ∈ A.final_states := by
  rw [convert_final]
  constructor
  · intro h
    obtain ⟨W, hWf, he⟩ := List.mem_map.mp h
    obtain ⟨hW, hWp⟩ := List.mem_filter.mp hWf
    rw [decide_eq_true_eq] at hWp
    have hWV : W = V := visited_name_inj hinv hnice W hW V hV he
    rwa [hWV] at hWp
  · intro h
    exact List.mem_map.mpr ⟨V,
      List.mem_filter.mpr ⟨hV, decide_eq_true h⟩, rfl⟩

lemma verdict_eq_aceita (c : Prop) [Decidable c] :
    ((if c then "ACEITA" else "REJEITA") : String) = "ACEITA" ↔ c := by
  by_cases h : c
  · rw [if_pos h]
    simp [h]
  · rw [if_neg h]
    constructor
    · intro he
      exact absurd he (by decide)
    · intro hc
      exact absurd hc h

lemma verdict_eq_rejeita (c : Prop) [Decidable c] :
    ((if c then "ACEITA" else "REJEITA") : String) = "REJEITA" ↔ ¬ c := by
  by_cases h : c
  · rw [if_pos h]
    constructor
    · intro he
      exact absurd he (by decide)
    · intro hc
      exact absurd h hc
  · rw [if_neg h]
    simp [h]

lemma is_valid_word_iff {alphabet : List String} {w : List Char} :
    is_valid_word alphabet w = true ↔ ∀ c ∈ w, String.mk [c] ∈ alphabet := by
  rw [is_valid_word, List.all_eq_true]
  constructor
  · intro h c hc
    have := h c hc
    rwa [List.elem_iff] at this
  · intro h c hc
    rw [List.elem_iff]
    exact h c hc

lemma convert_process_iff {A : Automaton} (hinv : SatisfiesInvariants A)
    (hnice : NiceNames A) {w : List Char}
    (hw : is_valid_word A.alphabet w = true) :
    processWord (convert_to_dfa A) w = "ACEITA" ↔
      ∃ qf ∈ A.final_states, NfaRun A.delta A.initial_state
        (w.take (live_len A.delta (conv_start A) w)) qf := by
  have hvalid : ∀ c ∈ w, String.mk [c] ∈ A.alphabet := is_valid_word_iff.mp hw
  have hstart : conv_start A ∈ (conv_run A).1 := (conv_run_spec A).2.1
  obtain ⟨hsim, hlive⟩ := conv_sim_track hinv hnice w (conv_start A) hstart hvalid
  have hD : processWord (convert_to_dfa A) w =
      if sim (conv_run A).2 (state_to_str (conv_start A)) w ∈
        (convert_to_dfa A).final_states then "ACEITA" else "REJEITA" := by
    rw [processWord, convert_alphabet, hw]
    rw [if_pos rfl, convert_delta, convert_initial]
  rw [hD, hsim, verdict_eq_aceita, conv_final_iff hinv hnice hlive]
  have hrun : live_run A.delta (conv_start A) w =
      powerRun A.delta (epsilon_closure A.delta {A.initial_state})
        (w.take (live_len A.delta (conv_start A) w)) := by
    rw [live_run_eq_powerRun_take]
    rfl
  rw [hrun]
  constructor
  · rintro ⟨q, hq, hqf⟩
    obtain ⟨s, hs, hrun'⟩ := (mem_powerRun_ec A.delta _ _ _).mp hq
    rw [Finset.mem_singleton] at hs
    exact ⟨q, hqf, hs ▸ hrun'⟩
  · rintro ⟨qf, hqf, hrun'⟩
    refine ⟨qf, ?_, hqf⟩
    exact (mem_powerRun_ec A.delta _ _ _).mpr
      ⟨A.initial_state, Finset.mem_singleton_self _, hrun'⟩

/-! The verdict dictionary of process, and a small-step reading of the
simulation loop. -/

lemma dict_insert_inv (A : Automaton) :
    ∀ (d : List (List Char × String)) (k : List Char) (v : String),
    (∀ p ∈ d, p.2 = processWord A p.1) → v = processWord A k →
    ∀ p ∈ dict_insert d k v, p.2 = processWord A p.1 := by
  intro d k v hd hv p hp
  rw [dict_insert] at hp
  by_cases hany : d.any (fun p => p.1 == k) = true
  · rw [if_pos hany] at hp
    obtain ⟨p', hp', he⟩ := List.mem_map.mp hp
    by_cases hk : p'.1 == k
    · rw [if_pos hk] at he
      rw [← he]
      show v = processWord A k
      exact hv
    · rw [if_neg hk] at he
      rw [← he]
      exact hd p' hp'
  · rw [if_neg hany] at hp
    rcases List.mem_append.mp hp with h | h
    · exact hd p h
    · rw [List.mem_singleton] at h
      rw [h]
      exact hv

lemma dict_insert_key_old :
    ∀ (d : List (List Char × String)) (k : List Char) (v : String)
    (w : List Char), (∃ p ∈ d, p.1 = w) → ∃ p ∈ dict_insert d k v, p.1 = w := by
  intro d k v w ⟨p, hp, he⟩
  rw [dict_insert]
  by_cases hany : d.any (fun p => p.1 == k) = true
  · rw [if_pos hany]
    by_cases hk : p.1 == k
    · refine ⟨(k, v), List.mem_map.mpr ⟨p, hp, by rw [if_pos hk]⟩, ?_⟩
      show k = w
      rw [← he]
      exact (beq_iff_eq.mp hk).symm
    · exact ⟨p, List.mem_map.mpr ⟨p, hp, by rw [if_neg hk]⟩, he⟩
  · rw [if_neg hany]
    exact ⟨p, List.mem_append_left _ hp, he⟩

lemma dict_insert_key_new :
    ∀ (d : List (List Char × String)) (k : List Char) (v : String),
    ∃ p ∈ dict_insert d k v, p.1 = k := by
  intro d k v
  rw [dict_insert]
  by_cases hany : d.any (fun p => p.1 == k) = true
  · rw [if_pos hany]
    obtain ⟨p, hp, hk⟩ := List.any_eq_true.mp hany
    exact ⟨(k, v), List.mem_map.mpr ⟨p, hp, by rw [if_pos hk]⟩, rfl⟩
  · rw [if_neg hany]
    exact ⟨(k, v), List.mem_append_right _ (List.mem_singleton_self _), rfl⟩

lemma process_fold_inv (A : Automaton) :
    ∀ (words : List (List Char)) (d : List (List Char × String)),
    (∀ p ∈ d, p.2 = processWord A p.1) →
    ∀ p ∈ words.foldl (fun res word => dict_insert res word (processWord A word)) d,
    p.2 = processWord A p.1 := by
  intro words
  induction words with
  | nil => intro d hd p hp; exact hd p hp
  | cons word rest ih =>
    intro d hd p hp
    rw [List.foldl_cons] at hp
    exact ih _ (dict_insert_inv A d word _ hd rfl) p hp

lemma process_fold_keys (A : Automaton) :
    ∀ (words : List (List Char)) (d : List (List Char × String)) (w : List Char),
    w ∈ words ∨ (∃ p ∈ d, p.1 = w) →
    ∃ p ∈ words.foldl (fun res word => dict_insert res word (processWord A word)) d,
    p.1 = w := by
  intro words
  induction words with
  | nil =>
    intro d w hw
    rcases hw with h | h
    · exact absurd h (List.not_mem_nil w)
    · exact h
  | cons word rest ih =>
    intro d w hw
    rw [List.foldl_cons]
    apply ih
    rcases hw with h | h
    · rcases List.mem_cons.mp h with he | hm
      · right
        rw [he]
        exact dict_insert_key_new d word _
      · exact Or.inl hm
    · exact Or.inr (dict_insert_key_old d word _ w h)

lemma lookup_of_inv (A : Automaton) :
    ∀ (d : List (List Char × String)) (w : List Char),
    (∀ p ∈ d, p.2 = processWord A p.1) → (∃ p ∈ d, p.1 = w) →
    List.lookup w d = some (processWord A w) := by
  intro d
  induction d with
  | nil =>
    intro w _ ⟨p, hp, _⟩
    exact absurd hp (List.not_mem_nil p)
  | cons kv rest ih =>
    intro w hinv ⟨p, hp, he⟩
    rcases kv with ⟨k, v⟩
    by_cases hk : (w == k) = true
    · have hred : List.lookup w ((k, v) :: rest) = some v := by
        simp [List.lookup, hk]
      rw [hred]
      have hkv : v = processWord A k := hinv (k, v) (List.mem_cons_self _ _)
      rw [hkv, beq_iff_eq.mp hk]
    · have hred : List.lookup w ((k, v) :: rest) = List.lookup w rest := by
        simp [List.lookup, hk]
      rw [hred]
      apply ih w (fun p hp => hinv p (List.mem_cons_of_mem _ hp))
      rcases List.mem_cons.mp hp with hh | hh
      · exfalso
        apply hk
        rw [hh] at he
        exact beq_iff_eq.mpr he.symm
      · exact ⟨p, hh, he⟩

lemma process_lookup (A : Automaton) (words : List (List Char)) (w : List Char)
    (hw : w ∈ words) :
    List.lookup w (process A words) = some (processWord A w) := by
  rw [process]
  apply lookup_of_inv
  · exact process_fold_inv A words [] (fun p hp => absurd hp (List.not_mem_nil p))
  · exact process_fold_keys A words [] w (Or.inl hw)

/-- Small-step reading of the claim's description of the simulation loop:
one step follows the first matching transition. -/
inductive SimStepClaim (delta : List TRule) :
    String × List Char → String × List Char → Prop
  | step (q q' : String) (c : Char) (cs : List Char) :
      transition delta q (String.mk [c]) = some q' →
      SimStepClaim delta (q, c :: cs) (q', cs)

/-- Halting configurations under the claim's description: the word is
exhausted or no transition matches. -/
def halts_claim (delta : List TRule) (cfg : String × List Char) : Prop :=
  cfg.2 = [] ∨ ∃ c cs, cfg.2 = c :: cs ∧
    transition delta cfg.1 (String.mk [c]) = none

/-- Small-step reading of the code's simulation loop: one step follows the
first matching transition, provided its destination is not the empty string
(Python truthiness). -/
inductive SimStepCode (delta : List TRule) :
    String × List Char → String × List Char → Prop
  | step (q q' : String) (c : Char) (cs : List Char) :
      transition delta q (String.mk [c]) = some q' → q' ≠ "" →
      SimStepCode delta (q, c :: cs) (q', cs)

/-- Halting configurations of the code's loop: the word is exhausted, no
transition matches, or the first match leads to the empty-string name. -/
def halts_code (delta : List TRule) (cfg : String × List Char) : Prop :=
  cfg.2 = [] ∨ ∃ c cs, cfg.2 = c :: cs ∧
    (transition delta cfg.1 (String.mk [c]) = none ∨
     transition delta cfg.1 (String.mk [c]) = some "")

lemma sim_cons_eq (delta : List TRule) (q : String) (c : Char) (cs : List Char) :
    sim delta q (c :: cs) =
      (match transition delta q (String.mk [c]) with
       | some next => if next = "" then q else sim delta next cs
       | none => q) := rfl

lemma sim_rest_cons_eq (delta : List TRule) (q : String) (c : Char)
    (cs : List Char) :
    sim_rest delta q (c :: cs) =
      (match transition delta q (String.mk [c]) with
       | some next => if next = "" then c :: cs else sim_rest delta next cs
       | none => c :: cs) := rfl

lemma sim_of_halted {delta : List TRule} {q : String} {w : List Char}
    (h : halts_code delta (q, w)) :
    sim delta q w = q ∧ sim_rest delta q w = w := by
  cases w with
  | nil => exact ⟨rfl, rfl⟩
  | cons c cs =>
    rcases h with h | ⟨c', cs', he, h⟩
    · exact absurd h (by simp)
    · injection he with he1 he2
      rw [sim_cons_eq, sim_rest_cons_eq]
      rcases h with h | h
      · have h' : transition delta q (String.mk [c]) = none := by
          rw [he1]; exact h
        rw [h']
        exact ⟨rfl, rfl⟩
      · have h' : transition delta q (String.mk [c]) = some "" := by
          rw [he1]; exact h
        rw [h']
        exact ⟨by simp, by simp⟩

lemma sim_halts (delta : List TRule) :
    ∀ (w : List Char) (q : String),
    halts_code delta (sim delta q w, sim_rest delta q w) := by
  intro w
  induction w with
  | nil => intro q; exact Or.inl rfl
  | cons c cs ih =>
    intro q
    cases htr : transition delta q (String.mk [c]) with
    | none =>
      have hs : sim delta q (c :: cs) = q := by rw [sim_cons_eq, htr]
      have hr : sim_rest delta q (c :: cs) = c :: cs := by
        rw [sim_rest_cons_eq, htr]
      rw [hs, hr]
      exact Or.inr ⟨c, cs, rfl, Or.inl htr⟩
    | some q' =>
      by_cases hq' : q' = ""
      · have hs : sim delta q (c :: cs) = q := by
          simp [sim_cons_eq, htr, hq']
        have hr : sim_rest delta q (c :: cs) = c :: cs := by
          simp [sim_rest_cons_eq, htr, hq']
        rw [hs, hr]
        refine Or.inr ⟨c, cs, rfl, Or.inr ?_⟩
        rw [htr, hq']
      · have hs : sim delta q (c :: cs) = sim delta q' cs := by
          simp [sim_cons_eq, htr, hq']
        have hr : sim_rest delta q (c :: cs) = sim_rest delta q' cs := by
          simp [sim_rest_cons_eq, htr, hq']
        rw [hs, hr]
        exact ih q'

lemma sim_reaches (delta : List TRule) :
    ∀ (w : List Char) (q : String),
    Relation.ReflTransGen (SimStepCode delta) (q, w)
      (sim delta q w, sim_rest delta q w) := by
  intro w
  induction w with
  | nil => intro q; exact Relation.ReflTransGen.refl
  | cons c cs ih =>
    intro q
    cases htr : transition delta q (String.mk [c]) with
    | none =>
      have hs : sim delta q (c :: cs) = q := by rw [sim_cons_eq, htr]
      have hr : sim_rest delta q (c :: cs) = c :: cs := by
        rw [sim_rest_cons_eq, htr]
      rw [hs, hr]
    | some q' =>
      by_cases hq' : q' = ""
      · have hs : sim delta q (c :: cs) = q := by
          simp [sim_cons_eq, htr, hq']
        have hr : sim_rest delta q (c :: cs) = c :: cs := by
          simp [sim_rest_cons_eq, htr, hq']
        rw [hs, hr]
      · have hs : sim delta q (c :: cs) = sim delta q' cs := by
          simp [sim_cons_eq, htr, hq']
        have hr : sim_rest delta q (c :: cs) = sim_rest delta q' cs := by
          simp [sim_rest_cons_eq, htr, hq']
        rw [hs, hr]
        exact Relation.ReflTransGen.head (SimStepCode.step q q' c cs htr hq') (ih q')

lemma reach_halt_unique (delta : List TRule) :
    ∀ (cfg cfg' : String × List Char),
    Relation.ReflTransGen (SimStepCode delta) cfg cfg' →
    halts_code delta cfg' →
    cfg' = (sim delta cfg.1 cfg.2, sim_rest delta cfg.1 cfg.2) := by
  intro cfg cfg' hrtg
  induction hrtg using Relation.ReflTransGen.head_induction_on with
  | refl =>
    intro hhalt
    obtain ⟨h1, h2⟩ := sim_of_halted hhalt
    rw [h1, h2]
  | head hstep htail ih =>
    intro hhalt
    rcases hstep with ⟨q, q', c, cs, htr, hq'⟩
    have := ih hhalt
    rw [this]
    have he1 : sim delta q (c :: cs) = sim delta q' cs := by
      simp [sim_cons_eq, htr, hq']
    have he2 : sim_rest delta q (c :: cs) = sim_rest delta q' cs := by
      simp [sim_rest_cons_eq, htr, hq']
    rw [he1, he2]

lemma process_verdict_iff_reach (A : Automaton) (w : List Char)
    (hw : is_valid_word A.alphabet w = true) :
    (processWord A w = "ACEITA" ↔ ∃ cfg,
      Relation.ReflTransGen (SimStepCode A.delta) (A.initial_state, w) cfg ∧
      halts_code A.delta cfg ∧ cfg.1 ∈ A.final_states) ∧
    (processWord A w = "REJEITA" ↔ ∃ cfg,
      Relation.ReflTransGen (SimStepCode A.delta) (A.initial_state, w) cfg ∧
      halts_code A.delta cfg ∧ cfg.1 ∉ A.final_states) := by
  have hD : processWord A w =
      if sim A.delta A.initial_state w ∈ A.final_states then "ACEITA"
      else "REJEITA" := by
    rw [processWord, hw]
    rw [if_pos rfl]
  constructor
  · rw [hD, verdict_eq_aceita]
    constructor
    · intro hmem
      exact ⟨(sim A.delta A.initial_state w, sim_rest A.delta A.initial_state w),
        sim_reaches A.delta w A.initial_state, sim_halts A.delta w A.initial_state,
        hmem⟩
    · rintro ⟨cfg, hreach, hhalt, hmem⟩
      have := reach_halt_unique A.delta _ cfg hreach hhalt
      rw [this] at hmem
      exact hmem
  · rw [hD, verdict_eq_rejeita]
    constructor
    · intro hmem
      exact ⟨(sim A.delta A.initial_state w, sim_rest A.delta A.initial_state w),
        sim_reaches A.delta w A.initial_state, sim_halts A.delta w A.initial_state,
        hmem⟩
    · rintro ⟨cfg, hreach, hhalt, hmem⟩
      have := reach_halt_unique A.delta _ cfg hreach hhalt
      rw [this] at hmem
      exact hmem

/-! The loader's acceptance condition. -/

/-- One transition line is well formed: exactly three tokens, both endpoint
states declared, and a symbol that is & or declared. -/
def trans_line_ok (states alphabet : List String) (line : String) : Bool :=
  match pySplit line with
  | [o, s, d] => decide (o ∈ states) && decide (d ∈ states) &&
      (s == "&" || decide (s ∈ alphabet))
  | _ => false

/-- The claim's acceptance condition for load_automata: at least the four
header lines, accepting states and initial state declared, every transition
line (everything after the fourth line) well formed. -/
def load_ok_claim (input : List String) : Bool :=
  match input.map pyStrip with
  | l0 :: l1 :: l2 :: l3 :: rest =>
    (pySplit l2).all (fun q => decide (q ∈ pySplit l1)) &&
    decide (l3 ∈ pySplit l1) &&
    rest.all (trans_line_ok (pySplit l1) (pySplit l0))
  | _ => false

/-- The amended acceptance condition: the code additionally requires at
least one line beyond the four header lines. -/
def load_ok_amended (input : List String) : Bool :=
  match input.map pyStrip with
  | l0 :: l1 :: l2 :: l3 :: l4 :: rest =>
    (pySplit l2).all (fun q => decide (q ∈ pySplit l1)) &&
    decide (l3 ∈ pySplit l1) &&
    (l4 :: rest).all (trans_line_ok (pySplit l1) (pySplit l0))
  | _ => false

lemma parse_transitions_ok_iff (states alphabet : List String) :
    ∀ lines : List String,
    (∃ ds, parse_transitions states alphabet lines = Except.ok ds) ↔
    ∀ line ∈ lines, trans_line_ok states alphabet line = true := by
  intro lines
  induction lines with
  | nil =>
    constructor
    · intro _ line hline
      exact absurd hline (List.not_mem_nil line)
    · intro _
      exact ⟨[], rfl⟩
  | cons line rest ih =>
    constructor
    · rintro ⟨ds, hds⟩ line' hline'
      rcases hps : pySplit line with _ | ⟨o, tail⟩
      · simp only [parse_transitions, hps] at hds
        exact absurd hds (by simp)
      rcases tail with _ | ⟨s, tail2⟩
      · simp only [parse_transitions, hps] at hds
        exact absurd hds (by simp)
      rcases tail2 with _ | ⟨d, tail3⟩
      · simp only [parse_transitions, hps] at hds
        exact absurd hds (by simp)
      rcases tail3 with _ | ⟨e, tail4⟩
      · simp only [parse_transitions, hps] at hds
        by_cases h1 : o ∉ states ∨ d ∉ states
        · rw [if_pos h1] at hds
          exact absurd hds (by simp)
        · rw [if_neg h1] at hds
          by_cases h2 : s ≠ "&" ∧ s ∉ alphabet
          · rw [if_pos h2] at hds
            exact absurd hds (by simp)
          · rw [if_neg h2] at hds
            rcases List.mem_cons.mp hline' with he | hm
            · rw [he, trans_line_ok, hps]
              push_neg at h1 h2
              simp only [Bool.and_eq_true, Bool.or_eq_true, decide_eq_true_eq,
                beq_iff_eq]
              refine ⟨⟨h1.1, h1.2⟩, ?_⟩
              by_cases hs : s = "&"
              · exact Or.inl hs
              · exact Or.inr (h2 hs)
            · rcases hrec : parse_transitions states alphabet rest with e | ds'
              · rw [hrec] at hds
                exact absurd hds (by simp)
              · exact (ih.mp ⟨ds', hrec⟩) line' hm
      · simp only [parse_transitions, hps] at hds
        exact absurd hds (by simp)
    · intro hall
      have hline := hall line (List.mem_cons_self _ _)
      rw [trans_line_ok] at hline
      rcases hps : pySplit line with _ | ⟨o, tail⟩
      · rw [hps] at hline
        exact absurd hline (by simp)
      rcases tail with _ | ⟨s, tail2⟩
      · rw [hps] at hline
        exact absurd hline (by simp)
      rcases tail2 with _ | ⟨d, tail3⟩
      · rw [hps] at hline
        exact absurd hline (by simp)
      rcases tail3 with _ | ⟨e, tail4⟩
      · rw [hps] at hline
        simp only [Bool.and_eq_true, Bool.or_eq_true, decide_eq_true_eq,
          beq_iff_eq] at hline
        obtain ⟨⟨ho, hd⟩, hs⟩ := hline
        obtain ⟨ds', hds'⟩ := ih.mpr
          (fun l hl => hall l (List.mem_cons_of_mem _ hl))
        refine ⟨(o, (s, d)) :: ds', ?_⟩
        simp only [parse_transitions, hps]
        rw [if_neg (by push_neg; exact ⟨ho, hd⟩)]
        rw [if_neg (by
          intro hc
          rcases hs with hs | hs
          · exact hc.1 hs
          · exact hc.2 hs)]
        rw [hds']
      · rw [hps] at hline
        exact absurd hline (by simp)

lemma load_ok_iff (input : List String) :
    (∃ B, load_automata input = Except.ok B) ↔ load_ok_amended input = true := by
  rcases hm : input.map pyStrip with _ | ⟨l0, t0⟩
  · simp [load_automata, load_ok_amended, hm]
  rcases t0 with _ | ⟨l1, t1⟩
  · simp [load_automata, load_ok_amended, hm]
  rcases t1 with _ | ⟨l2, t2⟩
  · simp [load_automata, load_ok_amended, hm]
  rcases t2 with _ | ⟨l3, t3⟩
  · simp [load_automata, load_ok_amended, hm]
  rcases t3 with _ | ⟨l4, rest⟩
  · simp [load_automata, load_ok_amended, hm]
  constructor
  · rintro ⟨B, hB⟩
    simp only [load_automata, hm] at hB
    simp only [load_ok_amended, hm]
    by_cases hfin : ∀ q ∈ pySplit l2, q ∈ pySplit l1
    · rw [if_pos hfin] at hB
      rcases hrec : parse_transitions (pySplit l1) (pySplit l0) (l4 :: rest)
        with e | ds
      · rw [hrec] at hB
        exact absurd hB (by simp)
      · rw [hrec] at hB
        by_cases hini : l3 ∈ pySplit l1
        · simp only [Bool.and_eq_true, List.all_eq_true, decide_eq_true_eq]
          refine ⟨⟨fun q hq => hfin q hq, hini⟩, ?_⟩
          exact (parse_transitions_ok_iff (pySplit l1) (pySplit l0)
            (l4 :: rest)).mp ⟨ds, hrec⟩
        · simp [hini] at hB
    · rw [if_neg hfin] at hB
      exact absurd hB (by simp)
  · intro h
    simp only [load_ok_amended, hm] at h
    simp only [load_automata, hm]
    simp only [Bool.and_eq_true, List.all_eq_true, decide_eq_true_eq] at h
    obtain ⟨⟨hfin, hini⟩, htrans⟩ := h
    rw [if_pos hfin]
    obtain ⟨ds, hds⟩ := (parse_transitions_ok_iff (pySplit l1) (pySplit l0)
      (l4 :: rest)).mpr htrans
    rw [hds]
    refine ⟨⟨pySplit l1, pySplit l0, ds, l3, pySplit l2⟩, ?_⟩
    simp [hini]

/-! Auxiliary facts about the verdict of process on a single word. -/

lemma processWord_invalida_iff (A : Automaton) (w : List Char) :
    processWord A w = "INVALIDA" ↔ ∃ c ∈ w, String.mk [c] ∉ A.alphabet := by
  by_cases hv : is_valid_word A.alphabet w = true
  · have hred : processWord A w =
        if sim A.delta A.initial_state w ∈ A.final_states then "ACEITA"
        else "REJEITA" := by
      rw [processWord, hv, if_pos rfl]
    rw [hred]
    constructor
    · intro h
      exfalso
      by_cases hm : sim A.delta A.initial_state w ∈ A.final_states
      · rw [if_pos hm] at h
        exact absurd h (by decide)
      · rw [if_neg hm] at h
        exact absurd h (by decide)
    · rintro ⟨c, hc, hmem⟩
      exact absurd (is_valid_word_iff.mp hv c hc) hmem
  · have hv' : is_valid_word A.alphabet w = false := by
      cases hb : is_valid_word A.alphabet w
      · rfl
      · exact absurd hb hv
    have hpw : processWord A w = "INVALIDA" := by
      rw [processWord, hv']
      rfl
    rw [hpw]
    constructor
    · intro _
      have hnall : ¬ ∀ c ∈ w, String.mk [c] ∈ A.alphabet := by
        intro hall
        rw [is_valid_word_iff.mpr hall] at hv'
        exact absurd hv' (by simp)
      push_neg at hnall
      exact hnall
    · intro _
      rfl

/-! Concrete automata used by the counterexamples and witnesses. -/

/-- A one-state automaton accepting only the empty word: it has no
transitions, and its single state is accepting. -/
def autoLoopFree : Automaton := ⟨["q"], ["a"], [], "q", ["q"]⟩

/-- An automaton whose accepting state is named by the empty string, the
destination of its only transition. -/
def autoEmptyName : Automaton :=
  ⟨["q0", ""], ["a"], [("q0", ("a", ""))], "q0", [""]⟩

/-- A two-state automaton with a single transition, enough to make the
conversion worklist discover a second state set. -/
def autoPair : Automaton := ⟨["q0", "q1"], ["a"], [("q0", ("a", "q1"))], "q0", []⟩

/-- The conversion scenario of the spec: one epsilon transition from q0 to
q1 and one a-transition from q1 to the accepting q2. -/
def autoEps : Automaton :=
  ⟨["q0", "q1", "q2"], ["a"], [("q0", ("&", "q1")), ("q1", ("a", "q2"))],
    "q0", ["q2"]⟩

/-- The worked example of the source's docstring: alphabet a b, states
q0-q3, accepting q0 and q3, initial q0, a mod-2/mod-2 transition cycle. -/
def autoMod : Automaton :=
  ⟨["q0", "q1", "q2", "q3"], ["a", "b"],
    [("q0", ("a", "q1")), ("q0", ("b", "q2")), ("q1", ("a", "q0")),
     ("q1", ("b", "q3")), ("q2", ("a", "q3")), ("q2", ("b", "q0")),
     ("q3", ("a", "q1")), ("q3", ("b", "q2"))],
    "q0", ["q0", "q3"]⟩

/-- The claim's reading of find_transitions: matching transitions with
epsilon transitions excluded from the result. -/
def find_transitions_claim (delta : List TRule) (states : Finset String)
    (symbol : String) : Finset String :=
  ((delta.filter (fun t => decide (t.1 ∈ states) && (t.2.1 == symbol) &&
    !(t.2.1 == "&"))).map (fun t => t.2.2)).toFinset

/-! The claims. -/

/-- C1, counterexample to the claim as stated: the one-state automaton with
no transitions satisfies the section-3 invariants, the word "a" is over the
alphabet, and process on the converted DFA answers ACEITA — the DFA is
partial, so the simulation halts early in the accepting start state — while
the NFA has no accepting run on "a" (it has no run at all). -/
theorem C1_claim_counterexample :
    SatisfiesInvariants autoLoopFree ∧
    is_valid_word autoLoopFree.alphabet ['a'] = true ∧
    processWord (convert_to_dfa autoLoopFree) ['a'] = "ACEITA" ∧
    ¬ ∃ qf ∈ autoLoopFree.final_states,
        NfaRun autoLoopFree.delta autoLoopFree.initial_state ['a'] qf := by
  refine ⟨by decide, by decide, by decide, ?_⟩
  rintro ⟨qf, hqf, hrun⟩
  rw [nfaRun_cons] at hrun
  obtain ⟨q1, q2, _, hmem, _⟩ := hrun
  exact absurd hmem (List.not_mem_nil _)

/-- C1 (amended): for every automaton satisfying the section-3 invariants
whose state names are non-empty and comma-free, and every word over the
alphabet, process on the automaton returned by convert_to_dfa answers
ACEITA exactly when the NFA has an accepting run (full
powerset-with-epsilon semantics) on the longest prefix of the word along
which the powerset run stays alive — the whole word whenever the powerset
run never dies, and the prefix before the first dead step otherwise, since
the partial DFA then halts early and judges the last reached state set. -/
theorem C1_amended_subset_construction (A : Automaton) (w : List Char)
    (hinv : SatisfiesInvariants A) (hnice : NiceNames A)
    (hw : is_valid_word A.alphabet w = true) :
    processWord (convert_to_dfa A) w = "ACEITA" ↔
      ∃ qf ∈ A.final_states, NfaRun A.delta A.initial_state
        (w.take (live_len A.delta (conv_start A) w)) qf :=
  convert_process_iff hinv hnice hw

/-- C1 witness: the amended equivalence instantiated at the spec's
conversion scenario and the word "a". -/
theorem C1_amended_witness :
    SatisfiesInvariants autoEps ∧ NiceNames autoEps ∧
    is_valid_word autoEps.alphabet ['a'] = true ∧
    (processWord (convert_to_dfa autoEps) ['a'] = "ACEITA" ↔
      ∃ qf ∈ autoEps.final_states, NfaRun autoEps.delta autoEps.initial_state
        (['a'].take (live_len autoEps.delta (conv_start autoEps) ['a'])) qf) :=
  ⟨by decide, by decide, by decide,
    C1_amended_subset_construction autoEps ['a'] (by decide) (by decide)
      (by decide)⟩

/-- C2, counterexample to the claim as stated: on the automaton whose
accepting state is named by the empty string, the claim's first-match
simulation reaches and accepts that state on the word "a", but process
answers REJEITA, because the Python test `if next_state:` treats the
empty-string destination as falsy and halts in q0 instead of following the
matching transition. -/
theorem C2_claim_counterexample :
    is_valid_word autoEmptyName.alphabet ['a'] = true ∧
    processWord autoEmptyName ['a'] = "REJEITA" ∧
    ¬ (processWord autoEmptyName ['a'] = "ACEITA" ↔ ∃ cfg,
        Relation.ReflTransGen (SimStepClaim autoEmptyName.delta)
          (autoEmptyName.initial_state, ['a']) cfg ∧
        halts_claim autoEmptyName.delta cfg ∧
        cfg.1 ∈ autoEmptyName.final_states) := by
  refine ⟨by decide, by decide, fun h => ?_⟩
  have hrhs : ∃ cfg,
      Relation.ReflTransGen (SimStepClaim autoEmptyName.delta)
        (autoEmptyName.initial_state, ['a']) cfg ∧
      halts_claim autoEmptyName.delta cfg ∧
      cfg.1 ∈ autoEmptyName.final_states := by
    refine ⟨("", []), ?_, Or.inl rfl, by decide⟩
    exact Relation.ReflTransGen.single
      (SimStepClaim.step "q0" "" 'a' [] (by decide))
  have := h.mpr hrhs
  exact absurd this (by decide)

/-- C2 (amended): for every automaton and word over the alphabet, process
simulates from the initial state following, at each symbol, the first
transition in the list whose origin and symbol match and whose destination
is not the empty string; it stops consuming symbols as soon as no such
transition exists (also when the first match leads to the empty-string
name, the Python falsy case) and answers ACEITA exactly when the state of
the halting configuration reached from (initial, word) is accepting, and
REJEITA exactly when it is not. -/
theorem C2_amended_first_match_simulation (A : Automaton) (w : List Char)
    (hw : is_valid_word A.alphabet w = true) :
    (processWord A w = "ACEITA" ↔ ∃ cfg,
      Relation.ReflTransGen (SimStepCode A.delta) (A.initial_state, w) cfg ∧
      halts_code A.delta cfg ∧ cfg.1 ∈ A.final_states) ∧
    (processWord A w = "REJEITA" ↔ ∃ cfg,
      Relation.ReflTransGen (SimStepCode A.delta) (A.initial_state, w) cfg ∧
      halts_code A.delta cfg ∧ cfg.1 ∉ A.final_states) :=
  process_verdict_iff_reach A w hw

/-- C2 witness: the amended characterization instantiated at the worked
example of the source and the word "aab". -/
theorem C2_amended_witness :
    is_valid_word autoMod.alphabet ['a', 'a', 'b'] = true ∧
    ((processWord autoMod ['a', 'a', 'b'] = "ACEITA" ↔ ∃ cfg,
      Relation.ReflTransGen (SimStepCode autoMod.delta)
        (autoMod.initial_state, ['a', 'a', 'b']) cfg ∧
      halts_code autoMod.delta cfg ∧ cfg.1 ∈ autoMod.final_states) ∧
    (processWord autoMod ['a', 'a', 'b'] = "REJEITA" ↔ ∃ cfg,
      Relation.ReflTransGen (SimStepCode autoMod.delta)
        (autoMod.initial_state, ['a', 'a', 'b']) cfg ∧
      halts_code autoMod.delta cfg ∧ cfg.1 ∉ autoMod.final_states)) :=
  ⟨by decide,
    C2_amended_first_match_simulation autoMod ['a', 'a', 'b'] (by decide)⟩

/-- C3: the automaton returned by convert_to_dfa has as initial state the
name of the epsilon closure of the NFA's initial state, an unchanged
alphabet, as state list the names of the visited state sets, and a name in
its accepting list exactly when it names a visited state set containing at
least one accepting NFA state. -/
theorem C3_convert_output_structure (A : Automaton) :
    (convert_to_dfa A).initial_state =
      state_to_str (epsilon_closure A.delta {A.initial_state}) ∧
    (convert_to_dfa A).alphabet = A.alphabet ∧
    (convert_to_dfa A).states = (visited_sets A).map state_to_str ∧
    (∀ n, n ∈ (convert_to_dfa A).final_states ↔
      ∃ V ∈ visited_sets A, (∃ q ∈ V, q ∈ A.final_states) ∧
        n = state_to_str V) := by
  refine ⟨rfl, rfl, rfl, fun n => ?_⟩
  rw [convert_final]
  constructor
  · intro h
    obtain ⟨W, hWf, he⟩ := List.mem_map.mp h
    obtain ⟨hW, hWp⟩ := List.mem_filter.mp hWf
    rw [decide_eq_true_eq] at hWp
    exact ⟨W, hW, hWp, he.symm⟩
  · rintro ⟨V, hV, hVp, he⟩
    rw [he]
    exact List.mem_map.mpr ⟨V, List.mem_filter.mpr ⟨hV, decide_eq_true hVp⟩, rfl⟩

/-- C4: the code violates the claim — on the two-state automaton with one
a-transition (which satisfies the section-3 invariants), the discovered set
containing q1 is appended to visited twice, once at discovery and once more
when it is popped off the worklist, so the output state list is q0, q1, q1,
with a duplicated name. -/
theorem C4_duplicate_states_eval :
    SatisfiesInvariants autoPair ∧
    (convert_to_dfa autoPair).states = ["q0", "q1", "q1"] ∧
    ¬ (convert_to_dfa autoPair).states.Nodup := by decide

/-- C5, counterexample to the claim as stated: a description of exactly the
four header lines and no transition line satisfies every acceptance
condition the claim lists, yet load_automata rejects it, because the code
demands at least five lines. -/
theorem C5_claim_counterexample :
    load_ok_claim ["a", "q0", "q0", "q0"] = true ∧
    load_automata ["a", "q0", "q0", "q0"] =
      Except.error ("Arquivo invalido: numero insuficiente de linhas.") := by
  decide

/-- C5 (amended): load_automata succeeds exactly when the description has
at least five lines (the four header lines plus at least one further line),
every accepting state and the initial state are declared in the state list,
and every line after the fourth has exactly three tokens whose endpoint
states are declared and whose symbol is & or a declared alphabet symbol; in
particular a description of exactly the four header lines with no
transition line is rejected. -/
theorem C5_amended_load_accepts_iff (input : List String) :
    (∃ B, load_automata input = Except.ok B) ↔ load_ok_amended input = true :=
  load_ok_iff input

/-- C6: for every automaton and word list, process maps a word of the list
to INVALIDA exactly when one of its characters is not in the alphabet; the
empty word is never INVALIDA; and for an invalid word the verdict is
INVALIDA whatever the states, transitions, initial state and accepting
states are. -/
theorem C6_invalid_word_classification (A : Automaton)
    (words : List (List Char)) (w : List Char) (hw : w ∈ words) :
    (List.lookup w (process A words) = some "INVALIDA" ↔
      ∃ c ∈ w, String.mk [c] ∉ A.alphabet) ∧
    (w = [] → List.lookup w (process A words) ≠ some "INVALIDA") ∧
    (is_valid_word A.alphabet w = false →
      ∀ (states : List String) (delta : List TRule) (init : String)
        (fin : List String),
        processWord ⟨states, A.alphabet, delta, init, fin⟩ w = "INVALIDA") := by
  have hlk := process_lookup A words w hw
  refine ⟨?_, ?_, ?_⟩
  · rw [hlk, Option.some_inj]
    exact processWord_invalida_iff A w
  · intro he hcon
    rw [hlk, Option.some_inj] at hcon
    obtain ⟨c, hc, _⟩ := (processWord_invalida_iff A w).mp hcon
    rw [he] at hc
    exact absurd hc (List.not_mem_nil c)
  · intro hv' states delta init fin
    apply (processWord_invalida_iff ⟨states, A.alphabet, delta, init, fin⟩ w).mpr
    have hnall : ¬ ∀ c ∈ w, String.mk [c] ∈ A.alphabet := by
      intro hall
      rw [is_valid_word_iff.mpr hall] at hv'
      exact absurd hv' (by simp)
    push_neg at hnall
    exact hnall

/-- C6 witness: the classification instantiated at the worked example, the
word list containing only "ac", and the word "ac". -/
theorem C6_witness :
    (['a', 'c'] ∈ [['a', 'c']]) ∧
    ((List.lookup ['a', 'c'] (process autoMod [['a', 'c']]) =
        some "INVALIDA" ↔
      ∃ c ∈ ['a', 'c'], String.mk [c] ∉ autoMod.alphabet) ∧
    (['a', 'c'] = ([] : List Char) →
      List.lookup ['a', 'c'] (process autoMod [['a', 'c']]) ≠
        some "INVALIDA") ∧
    (is_valid_word autoMod.alphabet ['a', 'c'] = false →
      ∀ (states : List String) (delta : List TRule) (init : String)
        (fin : List String),
        processWord ⟨states, autoMod.alphabet, delta, init, fin⟩ ['a', 'c'] =
          "INVALIDA")) :=
  ⟨List.mem_singleton_self _,
    C6_invalid_word_classification autoMod [['a', 'c']] ['a', 'c']
      (List.mem_singleton_self _)⟩

/-- C7, counterexample to the claim as stated: the distinct non-empty sets
containing the single name a,b and the two names a and b receive the same
sorted comma-joined name, so the naming is not injective on arbitrary
distinct non-empty sets of state names. -/
theorem C7_claim_counterexample :
    state_to_str ({"a,b"} : Finset String) =
      state_to_str ({"a", "b"} : Finset String) ∧
    ({"a,b"} : Finset String) ≠ ({"a", "b"} : Finset String) ∧
    ({"a,b"} : Finset String).Nonempty ∧
    ({"a", "b"} : Finset String).Nonempty := by
  refine ⟨by decide, by decide, ⟨"a,b", by decide⟩, ⟨"a", by decide⟩⟩

/-- C7 (amended): the sorted comma-joined naming is injective on distinct
non-empty sets of comma-free names (its domain being sets, it is
order-independent by construction, so two explorations reaching the same
underlying set produce the same name). -/
theorem C7_amended_naming_injective (S T : Finset String)
    (hS : S.Nonempty) (hT : T.Nonempty)
    (hSc : ∀ x ∈ S, ¬ ((',' : Char) ∈ x.data))
    (hTc : ∀ x ∈ T, ¬ ((',' : Char) ∈ x.data))
    (hne : S ≠ T) : state_to_str S ≠ state_to_str T :=
  fun h => hne (state_to_str_inj hS hT hSc hTc h)

/-- C7 witness: the amended injectivity instantiated at the singleton sets
of a and of b. -/
theorem C7_amended_witness :
    ({"a"} : Finset String).Nonempty ∧ ({"b"} : Finset String).Nonempty ∧
    (∀ x ∈ ({"a"} : Finset String), ¬ ((',' : Char) ∈ x.data)) ∧
    (∀ x ∈ ({"b"} : Finset String), ¬ ((',' : Char) ∈ x.data)) ∧
    ({"a"} : Finset String) ≠ {"b"} ∧
    state_to_str {"a"} ≠ state_to_str {"b"} :=
  ⟨⟨"a", by decide⟩, ⟨"b", by decide⟩, by decide, by decide, by decide,
    C7_amended_naming_injective {"a"} {"b"} ⟨"a", by decide⟩ ⟨"b", by decide⟩
      (by decide) (by decide) (by decide)⟩

/-- C8, counterexample to the claim as stated: for the epsilon symbol
itself, find_transitions returns the epsilon destinations rather than
excluding them, so its result differs from the claim's
matching-with-epsilon-excluded set. -/
theorem C8_claim_counterexample :
    find_transitions [("q", ("&", "r"))] {"q"} "&" = {"r"} ∧
    find_transitions_claim [("q", ("&", "r"))] {"q"} "&" = ∅ ∧
    find_transitions [("q", ("&", "r"))] {"q"} "&" ≠
      find_transitions_claim [("q", ("&", "r"))] {"q"} "&" := by decide

/-- C8 (amended): for every state set and every symbol, including &,
find_transitions returns exactly the destinations of the transitions whose
origin is in the set and whose symbol equals the given symbol — epsilon
transitions are excluded only in the sense that they never match a
non-& symbol. -/
theorem C8_amended_find_transitions (delta : List TRule) (S : Finset String)
    (sym d : String) :
    d ∈ find_transitions delta S sym ↔ ∃ o ∈ S, (o, (sym, d)) ∈ delta :=
  mem_find_transitions

/-- C9: the epsilon closure is idempotent: closing an already closed state
set adds nothing. -/
theorem C9_closure_idempotent (delta : List TRule) (S : Finset String) :
    epsilon_closure delta (epsilon_closure delta S) = epsilon_closure delta S :=
  epsilon_closure_idem delta S

/-- C10: the worklist loops of handle_closure, epsilon_closure and
convert_to_dfa all terminate: with the fuel each wrapper supplies, the
computation has already reached an empty worklist, so any additional fuel
leaves the result unchanged — the visited-set guard bounds the closure
loops by the finite set of epsilon destinations, and the conversion loop by
the finite power set of the discoverable states. -/
theorem C10_loops_terminate :
    (∀ (delta : List TRule) (state : String) (k : Nat),
      closure_loop delta (1 + 2 * (insert state (epsDests delta)).card + k)
        [state] {state} = handle_closure state delta) ∧
    (∀ (delta : List TRule) (S : Finset String) (k : Nat),
      closure_loop delta (S.card + 2 * (S ∪ epsDests delta).card + k)
        (sortedNames S) S = epsilon_closure delta S) ∧
    (∀ (A : Automaton) (k : Nat),
      convert_loop A.alphabet A.delta (conv_fuel A + k)
        [conv_start A] [] [] = conv_run A) := by
  refine ⟨?_, ?_, ?_⟩
  · intro delta state k
    rw [handle_closure_eq_loop]
    apply closure_loop_fuel_add delta (insert state (epsDests delta))
    · intro t ht ha
      exact Finset.mem_insert_of_mem (mem_epsDests.mpr ⟨t, ht, ha, rfl⟩)
    · intro x hx
      rw [Finset.mem_singleton] at hx
      rw [hx]
      exact Finset.mem_insert_self _ _
    · simp only [List.length_singleton, Finset.card_singleton]
      omega
  · intro delta S k
    rw [epsilon_closure_eq_loop]
    apply closure_loop_fuel_add delta (S ∪ epsDests delta)
    · intro t ht ha
      exact Finset.mem_union_right _ (mem_epsDests.mpr ⟨t, ht, ha, rfl⟩)
    · exact Finset.subset_union_left
    · rw [length_sortedNames]
      omega
  · intro A k
    show convert_loop A.alphabet A.delta (conv_fuel A + k) [conv_start A] [] [] =
      convert_loop A.alphabet A.delta (conv_fuel A) [conv_start A] [] []
    apply convert_loop_fuel_add A.alphabet A.delta (convU A) (convU_spec A)
    · intro V hV
      rw [List.mem_singleton] at hV
      rw [hV]
      exact conv_start_subset A
    · intro V hV
      exact absurd hV (List.not_mem_nil V)
    · simp only [List.length_singleton, List.toFinset_nil, Finset.card_empty]
      rw [conv_fuel]
      omega
